import Mathlib

/-!
Module deduplication and vulnerability fetching of `vulncheck/fetch.go`.

A shallow embedding of `src/vulncheck/fetch.go`.

Modelling conventions.

* Go strings are Lean `String`s; `strings.HasPrefix` is the prefix test on the
  underlying character lists.
* A `*Module` is an `Option Module` (`none` is the nil pointer).  Modules are
  never mutated and never compared by address in this file, so a module pointer
  is represented by the value it points to.
* A `*Package` is an `Option (Fin n)`: an index into a heap of `n` package
  nodes (`none` is nil).  The `seen` map of `extractModules` is keyed by
  pointer identity, which is the index here, so shared and cyclic import
  graphs are expressible.
* `map[string]*Module` is an association list with unique keys; Go leaves the
  iteration order of a map unspecified, so the list returned by
  `extractModules` is determined only up to a permutation.
* The recursive closure `extract` carries a fuel argument that bounds the
  depth of the call stack; `none` means the fuel ran out.
* The vulnerability client is an interface in Go: it is a state transformer
  here, and the package-level flag `fetchingInTesting` and the value of
  `modCacheDirectory()` are explicit arguments of `isLocal`.
* `modCacheDirectory` takes the two environment variables, the platform
  default and the library function `filepath.Join` as arguments.
-/

namespace Vulncheck

/-! ## Data model -/

/-- The fields of `Module` that `fetch.go` reads. -/
structure Module where
  Path : String
  Version : String
  Dir : String
  Replace : Option Module
deriving Repr

/-- Decidable equality of modules, by recursion along the `Replace` chain. -/
def Module.decEq : (a b : Module) → Decidable (a = b)
  | ⟨p1, v1, d1, r1⟩, ⟨p2, v2, d2, r2⟩ =>
    if hp : p1 = p2 then
      if hv : v1 = v2 then
        if hd : d1 = d2 then
          match r1, r2 with
          | none, none => isTrue (by rw [hp, hv, hd])
          | some a, some b =>
            match Module.decEq a b with
            | isTrue h => isTrue (by rw [hp, hv, hd, h])
            | isFalse h => isFalse (by intro e; cases e; exact h rfl)
          | none, some _ => isFalse (by intro e; cases e)
          | some _, none => isFalse (by intro e; cases e)
        else isFalse (by intro e; cases e; exact hd rfl)
      else isFalse (by intro e; cases e; exact hv rfl)
    else isFalse (by intro e; cases e; exact hp rfl)

instance : DecidableEq Module := Module.decEq

/-- A package node of the import graph: `Imports []*Package` and
`Module *Module`.  Package pointers are indices below `n`. -/
structure Package (n : Nat) where
  Imports : List (Option (Fin n))
  Module : Option Module

/-- The heap of package nodes: what each package pointer points to. -/
abbrev Heap (n : Nat) := Fin n → Package n

/-! ## modKey and the module map -/

/-- Go: `modKey`.  The empty string for nil, `Path@Version` otherwise. -/
def modKey (mod : Option Module) : String :=
  match mod with
  | none => ""
  | some m => m.Path ++ "@" ++ m.Version

/-- A Go `map[string]*Module` holding non-nil modules. -/
abbrev ModMap := List (String × Module)

/-- Go: `modMap[k] = v`.  Overwrites the entry of `k` or adds a new one. -/
def ModMap.set : ModMap → String → Module → ModMap
  | [], k, v => [(k, v)]
  | (k', v') :: rest, k, v =>
    if k' = k then (k, v) :: rest else (k', v') :: ModMap.set rest k v

/-- The keys of a module map. -/
def ModMap.keys (mm : ModMap) : List String := mm.map Prod.fst

/-- The values of a module map, in the order of the association list. -/
def ModMap.values (mm : ModMap) : List Module := mm.map Prod.snd

/-! ## extractModules -/

/-- The mutable state of `extractModules`: the module map and the `seen` set. -/
structure ExtractState (n : Nat) where
  modMap : ModMap
  seen : List (Fin n)

/-- Go: the closure `extract` inside `extractModules`.  `fuel` bounds the depth
of the recursion. -/
def extract {n : Nat} (H : Heap n) :
    Nat → Option (Fin n) → ExtractState n → Option (ExtractState n)
  | 0, _, _ => none
  | _ + 1, none, st => some st
  | fuel + 1, some pkg, st =>
    if pkg ∈ st.seen then some st
    else
      let modMap :=
        match (H pkg).Module with
        | some mod =>
          match mod.Replace with
          | some r => st.modMap.set (modKey (some r)) mod
          | none => st.modMap.set (modKey (some mod)) mod
        | none => st.modMap
      (H pkg).Imports.foldlM (fun s imp => extract H fuel imp s) ⟨modMap, pkg :: st.seen⟩

/-- Go: the loop `for _, pkg := range pkgs { extract(pkg, modMap) }` run on the
empty map and the empty `seen` set. -/
def extractRoots {n : Nat} (H : Heap n) (fuel : Nat) (pkgs : List (Option (Fin n))) :
    Option (ExtractState n) :=
  pkgs.foldlM (fun s pkg => extract H fuel pkg s) ⟨[], []⟩

/-- Go: `extractModules`, with the values of the map listed in the order of the
association list. -/
def extractModules {n : Nat} (H : Heap n) (fuel : Nat) (pkgs : List (Option (Fin n))) :
    Option (List Module) :=
  (extractRoots H fuel pkgs).map (fun st => st.modMap.values)

/-- The possible return values of `extractModules`: the loop over the map may
visit its entries in any order. -/
def extractModulesReturns {n : Nat} (H : Heap n) (pkgs : List (Option (Fin n)))
    (out : List Module) : Prop :=
  ∃ fuel ms, extractModules H fuel pkgs = some ms ∧ out.Perm ms

/-- The effective identity key of a module: the key of its `Replace` when it
has one, its own key otherwise. -/
def effectiveKey (m : Module) : String :=
  match m.Replace with
  | some r => modKey (some r)
  | none => modKey (some m)

/-- Package `q` is reachable from a non-nil root of `pkgs` through import
edges. -/
inductive Reachable {n : Nat} (H : Heap n) (pkgs : List (Option (Fin n))) : Fin n → Prop
  | root {p : Fin n} : some p ∈ pkgs → Reachable H pkgs p
  | step {p q : Fin n} : Reachable H pkgs p → some q ∈ (H p).Imports → Reachable H pkgs q

/-- Two packages that import each other, with owning modules `a` and `b`. -/
def cycleHeap (a b : Module) : Heap 2 :=
  fun i => if i = 0 then ⟨[some 1], some a⟩ else ⟨[some 0], some b⟩

/-! ## fetchVulnerabilities -/

/-- Go: `modVulns`, one entry of a `moduleVulnerabilities` collection. -/
structure modVulns (Entry : Type) where
  mod : Module
  vulns : List Entry

/-- Go: the `client.Client` interface, restricted to `GetByModule`.  A call
takes the state of the client and a module path, and gives the returned pair
`([]*osv.Entry, error)` together with the next state of the client. -/
structure Client (σ Entry Err : Type) where
  GetByModule : σ → String → Except Err (List Entry) × σ

/-- Go: `strings.HasPrefix`. -/
def HasPrefix (s pre : String) : Bool := pre.data.isPrefixOf s.data

/-- Go: `isLocal`.  `fetchingInTesting` is the package-level flag and
`modCacheDirectory` the value that the call `modCacheDirectory()` returns. -/
def isLocal (fetchingInTesting : Bool) (modCacheDirectory : String) (mod : Module) : Bool :=
  if fetchingInTesting then false
  else
    let modDir :=
      match mod.Replace with
      | some r => r.Dir
      | none => mod.Dir
    modDir != "" && !HasPrefix modDir modCacheDirectory

/-- Go: the loop of `fetchVulnerabilities`, with `mv` the collection built so
far and `s` the state of the client.  The error case carries no collection. -/
def fetchLoop {σ Entry Err : Type} (fetchingInTesting : Bool) (modCacheDirectory : String)
    (client : Client σ Entry Err) :
    List Module → List (modVulns Entry) → σ → Except Err (List (modVulns Entry)) × σ
  | [], mv, s => (Except.ok mv, s)
  | mod :: rest, mv, s =>
    let modPath :=
      match mod.Replace with
      | some r => r.Path
      | none => mod.Path
    if isLocal fetchingInTesting modCacheDirectory mod then
      fetchLoop fetchingInTesting modCacheDirectory client rest mv s
    else
      match client.GetByModule s modPath with
      | (Except.error err, s') => (Except.error err, s')
      | (Except.ok vulns, s') =>
        if vulns.length = 0 then
          fetchLoop fetchingInTesting modCacheDirectory client rest mv s'
        else
          fetchLoop fetchingInTesting modCacheDirectory client rest (mv ++ [⟨mod, vulns⟩]) s'

/-- Go: `fetchVulnerabilities`.  The modules of the list are non-nil. -/
def fetchVulnerabilities {σ Entry Err : Type} (fetchingInTesting : Bool)
    (modCacheDirectory : String) (client : Client σ Entry Err) (s : σ)
    (modules : List Module) : Except Err (List (modVulns Entry)) × σ :=
  fetchLoop fetchingInTesting modCacheDirectory client modules [] s

/-- A client whose answer depends on the module path only, and whose state is the
log of the paths it has been queried with, oldest first. -/
def logClient {Entry Err : Type} (f : String → Except Err (List Entry)) :
    Client (List String) Entry Err :=
  ⟨fun log path => (f path, log ++ [path])⟩

/-- The path under which a module is looked up: the path of its `Replace` when
it has one, its own path otherwise. -/
def lookupPath (m : Module) : String :=
  match m.Replace with
  | some r => r.Path
  | none => m.Path

/-- The effective directory of a module: the directory of its `Replace` when it
has one, its own directory otherwise. -/
def effectiveDir (m : Module) : String :=
  match m.Replace with
  | some r => r.Dir
  | none => m.Dir

/-- Directory `d` resides under directory `c`: it is `c` itself or a path inside
directory `c`. -/
def residesUnder (c d : String) : Bool :=
  d = c || HasPrefix d (c ++ "/")

/-- The entry that a successful, non-empty lookup of an eligible module adds to
the collection. -/
def entryOf {Entry Err : Type} (fetchingInTesting : Bool) (modCacheDirectory : String)
    (f : String → Except Err (List Entry)) (m : Module) : Option (modVulns Entry) :=
  if isLocal fetchingInTesting modCacheDirectory m then none
  else
    match f (lookupPath m) with
    | Except.ok vs => if vs.length = 0 then none else some ⟨m, vs⟩
    | Except.error _ => none

/-- The modules of a list that are not local. -/
def eligible (fetchingInTesting : Bool) (modCacheDirectory : String) (ms : List Module) :
    List Module :=
  ms.filter (fun m => !isLocal fetchingInTesting modCacheDirectory m)

/-! ## Example inputs -/

/-- The module `X@1.0`, with no directory and no `Replace`. -/
def modX : Module := ⟨"X", "1.0", "", none⟩

/-- The module `Z@3.0`, materialised in the module cache. -/
def modZ : Module := ⟨"Z", "3.0", "/go/pkg/mod/Z@3.0", none⟩

/-- The module `Y@2.0`, replaced by `Z@3.0`. -/
def modY : Module := ⟨"Y", "2.0", "/go/pkg/mod/Y@2.0", some modZ⟩

/-- The module `W@1.0`, replaced by `Z@3.0` as well. -/
def modW : Module := ⟨"W", "1.0", "", some modZ⟩

/-- A graph with a diamond, a cycle, a nil import and a package without a module:
package 0 (module `X`) imports 1, 2 and nil; package 1 (no module) imports 3;
package 2 (module `Y`) imports 3 and 0; package 3 (module `W`) imports nothing. -/
def diamondHeap : Heap 4 :=
  ![⟨[some 1, some 2, none], some modX⟩, ⟨[some 3], none⟩,
    ⟨[some 3, some 0], some modY⟩, ⟨[], some modW⟩]

/-- A module of the workspace, materialised outside the module cache. -/
def modLocal : Module := ⟨"example.com/app", "", "/home/u/app", none⟩

/-- A module whose directory is a sibling of the module cache with the same
leading characters. -/
def modSibling : Module := ⟨"example.com/m", "1.0.0", "/go/pkg/modules/m", none⟩

/-- A module with an empty `Dir`, replaced by a directory of the workspace. -/
def modReplacedLocal : Module := ⟨"Y", "2.0", "", some ⟨"Y", "", "/home/u/y", none⟩⟩

/-- A module whose own `Dir` is in the workspace, replaced by `Z@3.0` of the
module cache. -/
def modReplacedCached : Module := ⟨"Y", "2.0", "/home/u/y", some modZ⟩

/-- A module of the workspace whose path is `Z`. -/
def modLocalZ : Module := ⟨"Z", "3.0", "/home/u/Z", none⟩

/-- A client answer table: one vulnerability for path `Z`, a failure for path
`bad`, nothing for every other path. -/
def vulnDB (path : String) : Except String (List String) :=
  if path = "Z" then Except.ok ["GO-2021-0001"]
  else if path = "bad" then Except.error "unavailable"
  else Except.ok []

/-! ## Invariants of the walk -/

/-- The invariant of the module map: keys are unique and every module is stored
under its effective key. -/
def MapInv (mm : ModMap) : Prop :=
  mm.keys.Nodup ∧ ∀ e ∈ mm, e.1 = effectiveKey e.2

/-- The map update that `extract` makes for a package. -/
def recordModule (mm : ModMap) (mod : Option Module) : ModMap :=
  match mod with
  | some mod =>
    match mod.Replace with
    | some r => mm.set (modKey (some r)) mod
    | none => mm.set (modKey (some mod)) mod
  | none => mm

/-- What a run of `extract` that returned has done to the state: `seen` and the
keys of the map only grow, every package it marked has all its imports marked
and its module keyed, and every new map entry is the module of a package it
marked. -/
structure Step {n : Nat} (H : Heap n) (st st' : ExtractState n) : Prop where
  seen_mono : ∀ q, q ∈ st.seen → q ∈ st'.seen
  closed : ∀ q, q ∈ st'.seen → q ∉ st.seen → ∀ r, some r ∈ (H q).Imports → r ∈ st'.seen
  keyed : ∀ q, q ∈ st'.seen → q ∉ st.seen →
    ∀ m, (H q).Module = some m → effectiveKey m ∈ st'.modMap.keys
  keys_mono : ∀ k, k ∈ st.modMap.keys → k ∈ st'.modMap.keys
  inv : MapInv st.modMap → MapInv st'.modMap
  origin : ∀ e, e ∈ st'.modMap →
    e ∈ st.modMap ∨ ∃ q, q ∈ st'.seen ∧ q ∉ st.seen ∧ (H q).Module = some e.2

/-- The number of packages of the heap that are not marked yet. -/
def unseen {n : Nat} (st : ExtractState n) : Nat :=
  (Finset.univ.filter (fun q : Fin n => q ∉ st.seen)).card


/-! ## Definitions for the visit order and the map lookup -/

/-- Go: `modMap[k]`, the lookup of a key. -/
def ModMap.get : ModMap → String → Option Module
  | [], _ => none
  | (k', v) :: rest, k => if k' = k then some v else ModMap.get rest k

/-- The effective key of the owning module of a package, when it has one. -/
def keyOf {n : Nat} (H : Heap n) (p : Fin n) : Option String :=
  (H p).Module.map effectiveKey

/-- The packages in the order in which `extractModules` marks them as seen,
earliest first. -/
def visitOrder {n : Nat} (H : Heap n) (fuel : Nat) (pkgs : List (Option (Fin n))) :
    Option (List (Fin n)) :=
  (extractRoots H fuel pkgs).map (fun st => st.seen.reverse)

/-- The depth-first pre-order of first visits from one package: a package that is
nil or already in `visited` adds nothing; otherwise it is appended and
its imports are walked in list order. -/
def dfsPreorder {n : Nat} (H : Heap n) :
    Nat → Option (Fin n) → List (Fin n) → Option (List (Fin n))
  | 0, _, _ => none
  | _ + 1, none, visited => some visited
  | fuel + 1, some p, visited =>
    if p ∈ visited then some visited
    else (H p).Imports.foldlM (fun v imp => dfsPreorder H fuel imp v) (visited ++ [p])

/-- The depth-first pre-order of first visits from a list of roots, in list
order. -/
def dfsPreorderRoots {n : Nat} (H : Heap n) (fuel : Nat) (pkgs : List (Option (Fin n))) :
    Option (List (Fin n)) :=
  pkgs.foldlM (fun v pkg => dfsPreorder H fuel pkg v) []

/-! ## The example of the specification -/

/-- The module `X@1.0` of the example, materialised in directory `d`. -/
def exampleX (d : String) : Module := ⟨"X", "1.0", d, none⟩

/-- The module `Z@3.0` of the example, materialised in directory `d`. -/
def exampleZ (d : String) : Module := ⟨"Z", "3.0", d, none⟩

/-- The module `Y@2.0` of the example, materialised in directory `d` and
replaced by `Z@3.0` in directory `dz`. -/
def exampleY (d dz : String) : Module := ⟨"Y", "2.0", d, some (exampleZ dz)⟩

/-- The graph of the example: package 0 (`PkgA`) has module `x` and imports
package 1 (`PkgB`), which has module `y` and imports nothing. -/
def exampleHeap (x y : Module) : Heap 2 :=
  fun i => if i = 0 then ⟨[some 1], some x⟩ else ⟨[], some y⟩

/-- A client answer table that has one vulnerability for path `Z` and none for
any other path. -/
def vulnZ (path : String) : Except String (List String) :=
  if path = "Z" then Except.ok ["GO-2021-0001"] else Except.ok []

/-! ## Logging an arbitrary client -/

/-- A client together with the log of the paths it has been queried with, oldest
first: every call is passed on to `c` and its path appended to the log. -/
def withLog {σ Entry Err : Type} (c : Client σ Entry Err) :
    Client (σ × List String) Entry Err :=
  ⟨fun s path => ((c.GetByModule s.1 path).1, ((c.GetByModule s.1 path).2, s.2 ++ [path]))⟩

/-- A client with a call counter as its state: its third call fails, every other
call answers from `vulnZ`. -/
def flakyClient : Client Nat String String :=
  ⟨fun k path => (if k = 2 then Except.error "timeout" else vulnZ path, k + 1)⟩

/-! ## Graphs without nil pointers -/

/-- The heap with the nil entries removed from every import list. -/
def dropNil {n : Nat} (H : Heap n) : Heap n :=
  fun p => ⟨(H p).Imports.filter (fun i => i.isSome), (H p).Module⟩

/-! ## Chained replacements -/

/-- The graph of one package without imports whose owning module is `m`. -/
def singleHeap (m : Module) : Heap 1 :=
  fun _ => ⟨[], some m⟩

/-- A module in the workspace that replaces `Z@3.0` in turn. -/
def modFork : Module := ⟨"fork", "0.0.1", "/home/u/fork", none⟩

/-- The module `Z@3.0` of the module cache, with a `Replace` of its own. -/
def modZChained : Module := ⟨"Z", "3.0", "/go/pkg/mod/Z@3.0", some modFork⟩

/-- The module `Y@2.0` replaced by a module that is replaced in turn. -/
def modYChained : Module := ⟨"Y", "2.0", "", some modZChained⟩

/-! ## modCacheDirectory -/

/-- Go: `modCacheDirectory`.  `GOMODCACHE` and `GOPATH` are the values of the two
`os.Getenv` calls, `defaultGOPATH` is `build.Default.GOPATH` and `Join` is
`filepath.Join`. -/
def modCacheDirectory (Join : List String → String)
    (GOMODCACHE GOPATH defaultGOPATH : String) : String :=
  if GOMODCACHE = "" then
    let modCacheDir := if GOPATH = "" then defaultGOPATH else GOPATH
    Join [modCacheDir, "pkg", "mod"]
  else GOMODCACHE

/-- The components of a path: the runs of characters between slashes. -/
def splitSlash : List Char → List (List Char)
  | [] => [[]]
  | c :: cs =>
    if c = '/' then [] :: splitSlash cs
    else
      match splitSlash cs with
      | h :: t => (c :: h) :: t
      | [] => [[c]]

/-- One step of `filepath.Clean` on the stack of the components kept so far, last
one first: an empty component and `.` are dropped, `..` removes the component
before it, is dropped at the root and is kept at the start of a relative
path. -/
def cleanStep (rooted : Bool) (stack : List (List Char)) (c : List Char) :
    List (List Char) :=
  if c = [] ∨ c = ['.'] then stack
  else if c = ['.', '.'] then
    match stack with
    | top :: rest => if top = ['.', '.'] then c :: stack else rest
    | [] => if rooted then [] else [c]
  else c :: stack

/-- Go: `filepath.Clean` where the separator is the slash. -/
def filepathClean (path : String) : String :=
  if path = "" then "."
  else
    let rooted := path.data.head? = some '/'
    let stack := (splitSlash path.data).foldl (cleanStep rooted) []
    let body := "/".intercalate (stack.reverse.map String.mk)
    let out := if rooted then "/" ++ body else body
    if out = "" then "." else out

/-- Go: `filepath.Join` where the separator is the slash: the elements from the
first non-empty one on, joined by slashes and cleaned; the empty string when
every element is empty. -/
def filepathJoin (elem : List String) : String :=
  match elem.dropWhile (fun e => e = "") with
  | [] => ""
  | rest => filepathClean ("/".intercalate rest)

/-! ## Keys of paths with an at sign -/

/-- A module whose path contains an at sign: path `a@b`, version `c`. -/
def modAtPath : Module := ⟨"a@b", "c", "", none⟩

/-- A module with the same key as `modAtPath`: path `a`, version `b@c`. -/
def modAtVersion : Module := ⟨"a", "b@c", "", none⟩

/-! ## Lemmas on the module map -/

theorem ModMap.mem_keys_set (mm : ModMap) (k : String) (v : Module) (k' : String) :
    k' ∈ (ModMap.set mm k v).keys ↔ k' = k ∨ k' ∈ mm.keys := by
  induction mm with
  | nil => simp [ModMap.set, ModMap.keys]
  | cons e rest ih =>
    obtain ⟨ke, ve⟩ := e
    unfold ModMap.set
    by_cases h : ke = k
    · subst h
      simp [ModMap.keys]
    · simp only [h, if_false]
      simp only [ModMap.keys, List.map_cons, List.mem_cons] at ih ⊢
      rw [ih]
      tauto

theorem ModMap.nodup_keys_set (mm : ModMap) (k : String) (v : Module)
    (h : mm.keys.Nodup) : (ModMap.set mm k v).keys.Nodup := by
  induction mm with
  | nil => simp [ModMap.set, ModMap.keys]
  | cons e rest ih =>
    obtain ⟨ke, ve⟩ := e
    unfold ModMap.set
    have hcons : ke ∉ ModMap.keys rest ∧ (ModMap.keys rest).Nodup := by
      simpa [ModMap.keys] using h
    by_cases hk : ke = k
    · subst hk
      simpa [ModMap.keys] using h
    · simp only [hk, if_false]
      have hrest := ih hcons.2
      have hnot : ke ∉ (ModMap.set rest k v).keys := by
        rw [ModMap.mem_keys_set]
        rintro (h1 | h1)
        · exact hk h1
        · exact hcons.1 h1
      simp only [ModMap.keys, List.map_cons, List.nodup_cons]
      exact ⟨hnot, hrest⟩

theorem ModMap.mem_set (mm : ModMap) (k : String) (v : Module) (e : String × Module)
    (h : e ∈ ModMap.set mm k v) : e = (k, v) ∨ e ∈ mm := by
  induction mm with
  | nil => simpa [ModMap.set] using h
  | cons e' rest ih =>
    obtain ⟨ke, ve⟩ := e'
    unfold ModMap.set at h
    by_cases hk : ke = k
    · simp only [hk, if_true, List.mem_cons] at h
      rcases h with h | h
      · exact Or.inl h
      · exact Or.inr (List.mem_cons_of_mem _ h)
    · simp only [hk, if_false, List.mem_cons] at h
      rcases h with h | h
      · exact Or.inr (by rw [h]; exact List.mem_cons_self _ _)
      · rcases ih h with h' | h'
        · exact Or.inl h'
        · exact Or.inr (List.mem_cons_of_mem _ h')

theorem MapInv.set_effectiveKey {mm : ModMap} (h : MapInv mm) (m : Module) :
    MapInv (ModMap.set mm (effectiveKey m) m) := by
  refine ⟨ModMap.nodup_keys_set mm _ m h.1, ?_⟩
  intro e he
  rcases ModMap.mem_set mm _ m e he with h1 | h1
  · rw [h1]
  · exact h.2 e h1

theorem MapInv.nodup_values {mm : ModMap} (h : MapInv mm) :
    (mm.values.map effectiveKey).Nodup := by
  have : mm.values.map effectiveKey = mm.keys := by
    unfold ModMap.values ModMap.keys
    rw [List.map_map]
    apply List.map_congr_left
    intro e he
    exact (h.2 e he).symm
  rw [this]
  exact h.1

theorem MapInv.values_keys {mm : ModMap} (h : MapInv mm) :
    mm.values.map effectiveKey = mm.keys := by
  unfold ModMap.values ModMap.keys
  rw [List.map_map]
  apply List.map_congr_left
  intro e he
  exact (h.2 e he).symm

theorem recordModule_some (mm : ModMap) (m : Module) :
    recordModule mm (some m) = ModMap.set mm (effectiveKey m) m := by
  obtain ⟨p, v, d, r⟩ := m
  cases r <;> rfl

theorem extract_succ_some {n : Nat} (H : Heap n) (fuel : Nat) (pkg : Fin n)
    (st : ExtractState n) :
    extract H (fuel + 1) (some pkg) st =
      if pkg ∈ st.seen then some st
      else (H pkg).Imports.foldlM (fun s imp => extract H fuel imp s)
        ⟨recordModule st.modMap (H pkg).Module, pkg :: st.seen⟩ := by
  rfl

/-! ## The depth-first walk -/

theorem Step.refl {n : Nat} (H : Heap n) (st : ExtractState n) : Step H st st where
  seen_mono := fun _ h => h
  closed := fun _ h h' => absurd h h'
  keyed := fun _ h h' => absurd h h'
  keys_mono := fun _ h => h
  inv := fun h => h
  origin := fun _ h => Or.inl h

theorem Step.trans {n : Nat} {H : Heap n} {s1 s2 s3 : ExtractState n}
    (h12 : Step H s1 s2) (h23 : Step H s2 s3) : Step H s1 s3 where
  seen_mono := fun q h => h23.seen_mono q (h12.seen_mono q h)
  closed := by
    intro q hq hnq r hr
    by_cases h2 : q ∈ s2.seen
    · exact h23.seen_mono r (h12.closed q h2 hnq r hr)
    · exact h23.closed q hq h2 r hr
  keyed := by
    intro q hq hnq m hm
    by_cases h2 : q ∈ s2.seen
    · exact h23.keys_mono _ (h12.keyed q h2 hnq m hm)
    · exact h23.keyed q hq h2 m hm
  keys_mono := fun k h => h23.keys_mono k (h12.keys_mono k h)
  inv := fun h => h23.inv (h12.inv h)
  origin := by
    intro e he
    rcases h23.origin e he with h | ⟨q, hq, hnq, hm⟩
    · rcases h12.origin e h with h' | ⟨q, hq, hnq, hm⟩
      · exact Or.inl h'
      · exact Or.inr ⟨q, h23.seen_mono q hq, hnq, hm⟩
    · exact Or.inr ⟨q, hq, fun h => hnq (h12.seen_mono q h), hm⟩

/-- A loop over package pointers whose body behaves like `extract`. -/
theorem foldlM_step {n : Nat} (H : Heap n)
    (f : ExtractState n → Option (Fin n) → Option (ExtractState n))
    (hf : ∀ s i s', f s i = some s' → Step H s s' ∧ ∀ q, i = some q → q ∈ s'.seen)
    (l : List (Option (Fin n))) :
    ∀ s s', l.foldlM f s = some s' → Step H s s' ∧ ∀ q, some q ∈ l → q ∈ s'.seen := by
  induction l with
  | nil =>
    intro s s' h
    simp only [List.foldlM_nil, Option.pure_def, Option.some.injEq] at h
    subst h
    exact ⟨Step.refl H s, fun q hq => by simp at hq⟩
  | cons i rest ih =>
    intro s s' h
    simp only [List.foldlM_cons, Option.bind_eq_bind, Option.bind_eq_some] at h
    obtain ⟨s1, h1, h2⟩ := h
    obtain ⟨hstep1, hseen1⟩ := hf s i s1 h1
    obtain ⟨hstep2, hseen2⟩ := ih s1 s' h2
    refine ⟨hstep1.trans hstep2, ?_⟩
    intro q hq
    rcases List.mem_cons.1 hq with hq | hq
    · exact hstep2.seen_mono q (hseen1 q hq.symm)
    · exact hseen2 q hq

theorem mem_keys_recordModule {mm : ModMap} {mod : Option Module} {k : String}
    (h : k ∈ mm.keys) : k ∈ (recordModule mm mod).keys := by
  cases mod with
  | none => exact h
  | some m =>
    rw [recordModule_some, ModMap.mem_keys_set]
    exact Or.inr h

theorem MapInv.recordModule {mm : ModMap} (h : MapInv mm) (mod : Option Module) :
    MapInv (recordModule mm mod) := by
  cases mod with
  | none => exact h
  | some m =>
    rw [recordModule_some]
    exact h.set_effectiveKey m

/-- The effect of a call of `extract` that returns. -/
theorem extract_step {n : Nat} (H : Heap n) :
    ∀ (fuel : Nat) (p : Option (Fin n)) (st st' : ExtractState n),
      extract H fuel p st = some st' →
        Step H st st' ∧ ∀ q, p = some q → q ∈ st'.seen := by
  intro fuel
  induction fuel with
  | zero =>
    intro p st st' h
    simp [extract] at h
  | succ fuel ih =>
    intro p st st' h
    cases p with
    | none =>
      simp only [extract, Option.some.injEq] at h
      subst h
      exact ⟨Step.refl H st, fun q hq => by cases hq⟩
    | some pkg =>
      rw [extract_succ_some] at h
      by_cases hs : pkg ∈ st.seen
      · simp only [hs, if_true, Option.some.injEq] at h
        subst h
        refine ⟨Step.refl H st, ?_⟩
        intro q hq
        cases hq
        exact hs
      · simp only [hs, if_false] at h
        obtain ⟨hstep, himp⟩ :=
          foldlM_step H (fun s imp => extract H fuel imp s) (fun s i s' => ih i s s')
            (H pkg).Imports _ st' h
        have hpkg : pkg ∈ st'.seen := hstep.seen_mono pkg (List.mem_cons_self _ _)
        refine ⟨?_, ?_⟩
        · constructor
          · intro q hq
            exact hstep.seen_mono q (List.mem_cons_of_mem _ hq)
          · intro q hq hnq r hr
            by_cases hqp : q = pkg
            · subst hqp
              exact himp r hr
            · refine hstep.closed q hq ?_ r hr
              intro hmem
              rcases List.mem_cons.1 hmem with h1 | h1
              · exact hqp h1
              · exact hnq h1
          · intro q hq hnq m hm
            by_cases hqp : q = pkg
            · subst hqp
              apply hstep.keys_mono
              show effectiveKey m ∈ (recordModule st.modMap (H q).Module).keys
              rw [hm, recordModule_some, ModMap.mem_keys_set]
              exact Or.inl rfl
            · refine hstep.keyed q hq ?_ m hm
              intro hmem
              rcases List.mem_cons.1 hmem with h1 | h1
              · exact hqp h1
              · exact hnq h1
          · intro k hk
            exact hstep.keys_mono k (mem_keys_recordModule hk)
          · intro hinv
            exact hstep.inv (hinv.recordModule _)
          · intro e he
            rcases hstep.origin e he with h1 | ⟨q, hq, hnq, hm⟩
            · have h1 : e ∈ recordModule st.modMap (H pkg).Module := h1
              cases hmod : (H pkg).Module with
              | none =>
                rw [hmod] at h1
                exact Or.inl h1
              | some m =>
                rw [hmod, recordModule_some] at h1
                rcases ModMap.mem_set _ _ _ _ h1 with h2 | h2
                · refine Or.inr ⟨pkg, hpkg, hs, ?_⟩
                  rw [h2]
                  exact hmod
                · exact Or.inl h2
            · refine Or.inr ⟨q, hq, ?_, hm⟩
              intro hmem
              exact hnq (List.mem_cons_of_mem _ hmem)
        · intro q hq
          cases hq
          exact hpkg

/-! ## The state after the roots have been walked -/

theorem extractRoots_step {n : Nat} (H : Heap n) (fuel : Nat) (pkgs : List (Option (Fin n)))
    (st : ExtractState n) (h : extractRoots H fuel pkgs = some st) :
    Step H ⟨[], []⟩ st ∧ ∀ q, some q ∈ pkgs → q ∈ st.seen :=
  foldlM_step H (fun s pkg => extract H fuel pkg s) (fun s i s' => extract_step H fuel i s s')
    pkgs _ st h

theorem MapInv.nil : MapInv [] :=
  ⟨List.nodup_nil, fun _ h => by cases h⟩

theorem extractRoots_inv {n : Nat} (H : Heap n) (fuel : Nat) (pkgs : List (Option (Fin n)))
    (st : ExtractState n) (h : extractRoots H fuel pkgs = some st) : MapInv st.modMap :=
  (extractRoots_step H fuel pkgs st h).1.inv MapInv.nil

/-- Every package reachable from a root has been marked when the walk ends. -/
theorem extractRoots_reachable {n : Nat} (H : Heap n) (fuel : Nat)
    (pkgs : List (Option (Fin n))) (st : ExtractState n)
    (h : extractRoots H fuel pkgs = some st) (q : Fin n) (hq : Reachable H pkgs q) :
    q ∈ st.seen := by
  obtain ⟨hstep, hroot⟩ := extractRoots_step H fuel pkgs st h
  induction hq with
  | root hp => exact hroot _ hp
  | step _ hedge ih => exact hstep.closed _ ih (by simp) _ hedge

/-- The module of every reachable package has its effective key in the map. -/
theorem extractRoots_keyed {n : Nat} (H : Heap n) (fuel : Nat)
    (pkgs : List (Option (Fin n))) (st : ExtractState n)
    (h : extractRoots H fuel pkgs = some st) (q : Fin n) (hq : Reachable H pkgs q)
    (m : Module) (hm : (H q).Module = some m) : effectiveKey m ∈ st.modMap.keys :=
  (extractRoots_step H fuel pkgs st h).1.keyed q
    (extractRoots_reachable H fuel pkgs st h q hq) (by simp) m hm

/-! ## Termination -/

theorem unseen_le {n : Nat} {st st' : ExtractState n}
    (h : ∀ q, q ∈ st.seen → q ∈ st'.seen) : unseen st' ≤ unseen st := by
  apply Finset.card_le_card
  intro q hq
  simp only [Finset.mem_filter, Finset.mem_univ, true_and] at hq ⊢
  exact fun hmem => hq (h q hmem)

theorem unseen_cons_lt {n : Nat} (mm : ModMap) (st : ExtractState n) (pkg : Fin n)
    (h : pkg ∉ st.seen) : unseen (⟨mm, pkg :: st.seen⟩ : ExtractState n) < unseen st := by
  apply Finset.card_lt_card
  rw [Finset.ssubset_iff_of_subset]
  · refine ⟨pkg, ?_, ?_⟩
    · simpa using h
    · simp
  · intro q hq
    simp only [Finset.mem_filter, Finset.mem_univ, true_and, List.mem_cons, not_or] at hq ⊢
    exact hq.2

/-- A loop whose body returns whenever fewer than `k` packages are unmarked
returns, from any state with fewer than `k` unmarked packages. -/
theorem foldlM_total {n : Nat} (H : Heap n) (k : Nat)
    (f : ExtractState n → Option (Fin n) → Option (ExtractState n))
    (hf : ∀ s i, unseen s < k → ∃ s', f s i = some s' ∧ Step H s s')
    (l : List (Option (Fin n))) :
    ∀ s, unseen s < k → ∃ s', l.foldlM f s = some s' := by
  induction l with
  | nil => exact fun s _ => ⟨s, rfl⟩
  | cons i rest ih =>
    intro s hs
    obtain ⟨s1, h1, hstep⟩ := hf s i hs
    obtain ⟨s2, h2⟩ := ih s1 (lt_of_le_of_lt (unseen_le hstep.seen_mono) hs)
    refine ⟨s2, ?_⟩
    simp only [List.foldlM_cons, Option.bind_eq_bind, h1, Option.some_bind, h2]

/-- A call of `extract` returns when the fuel exceeds the number of unmarked
packages. -/
theorem extract_total {n : Nat} (H : Heap n) :
    ∀ (fuel : Nat) (p : Option (Fin n)) (st : ExtractState n),
      unseen st < fuel → ∃ st', extract H fuel p st = some st' := by
  intro fuel
  induction fuel with
  | zero => exact fun _ _ h => absurd h (Nat.not_lt_zero _)
  | succ fuel ih =>
    intro p st hlt
    cases p with
    | none => exact ⟨st, rfl⟩
    | some pkg =>
      rw [extract_succ_some]
      by_cases hs : pkg ∈ st.seen
      · exact ⟨st, by simp [hs]⟩
      · simp only [hs, if_false]
        apply foldlM_total H fuel
        · intro s i hsi
          obtain ⟨s', hs'⟩ := ih i s hsi
          exact ⟨s', hs', (extract_step H fuel i s s' hs').1⟩
        · have := unseen_cons_lt (recordModule st.modMap (H pkg).Module) st pkg hs
          omega

theorem unseen_le_card {n : Nat} (st : ExtractState n) : unseen st ≤ n := by
  unfold unseen
  calc (Finset.univ.filter (fun q : Fin n => q ∉ st.seen)).card
      ≤ (Finset.univ : Finset (Fin n)).card := Finset.card_filter_le _ _
    _ = n := by simp

/-- With more fuel than there are packages, the walk over the roots returns. -/
theorem extractRoots_total {n : Nat} (H : Heap n) (fuel : Nat) (hfuel : n < fuel)
    (pkgs : List (Option (Fin n))) : ∃ st, extractRoots H fuel pkgs = some st := by
  apply foldlM_total H fuel
  · intro s i hsi
    obtain ⟨s', hs'⟩ := extract_total H fuel i s hsi
    exact ⟨s', hs', (extract_step H fuel i s s' hs').1⟩
  · exact lt_of_le_of_lt (unseen_le_card _) hfuel

/-! ## The result does not depend on the fuel -/

theorem foldlM_some_mono {α β : Type} (f g : α → β → Option α)
    (hfg : ∀ s i s', f s i = some s' → g s i = some s') (l : List β) :
    ∀ s s', l.foldlM f s = some s' → l.foldlM g s = some s' := by
  induction l with
  | nil => exact fun s s' h => h
  | cons i rest ih =>
    intro s s' h
    simp only [List.foldlM_cons, Option.bind_eq_bind, Option.bind_eq_some] at h ⊢
    obtain ⟨s1, h1, h2⟩ := h
    exact ⟨s1, hfg s i s1 h1, ih s1 s' h2⟩

theorem extract_fuel_succ {n : Nat} (H : Heap n) :
    ∀ (fuel : Nat) (p : Option (Fin n)) (st st' : ExtractState n),
      extract H fuel p st = some st' → extract H (fuel + 1) p st = some st' := by
  intro fuel
  induction fuel with
  | zero =>
    intro p st st' h
    simp [extract] at h
  | succ fuel ih =>
    intro p st st' h
    cases p with
    | none => exact h
    | some pkg =>
      rw [extract_succ_some] at h ⊢
      by_cases hs : pkg ∈ st.seen
      · simpa [hs] using h
      · simp only [hs, if_false] at h ⊢
        exact foldlM_some_mono _ _ (fun s i s' => ih i s s') _ _ _ h

theorem extract_fuel_le {n : Nat} (H : Heap n) (fuel fuel' : Nat) (hle : fuel ≤ fuel')
    (p : Option (Fin n)) (st st' : ExtractState n) (h : extract H fuel p st = some st') :
    extract H fuel' p st = some st' := by
  induction hle with
  | refl => exact h
  | step _ ih => exact extract_fuel_succ H _ p st st' ih

theorem extractRoots_fuel_le {n : Nat} (H : Heap n) (fuel fuel' : Nat) (hle : fuel ≤ fuel')
    (pkgs : List (Option (Fin n))) (st : ExtractState n)
    (h : extractRoots H fuel pkgs = some st) : extractRoots H fuel' pkgs = some st :=
  foldlM_some_mono _ _ (fun s i s' => extract_fuel_le H fuel fuel' hle i s s') pkgs _ st h

/-- Two runs that both return give the same state, whatever their fuel. -/
theorem extractRoots_fuel_unique {n : Nat} (H : Heap n) (fuel fuel' : Nat)
    (pkgs : List (Option (Fin n))) (st st' : ExtractState n)
    (h : extractRoots H fuel pkgs = some st) (h' : extractRoots H fuel' pkgs = some st') :
    st = st' := by
  have h1 := extractRoots_fuel_le H fuel (max fuel fuel') (le_max_left _ _) pkgs st h
  have h2 := extractRoots_fuel_le H fuel' (max fuel fuel') (le_max_right _ _) pkgs st' h'
  rw [h1] at h2
  exact Option.some.inj h2

/-! ## The fetch loop -/

theorem fetchLoop_nil {σ Entry Err : Type} (flag : Bool) (dir : String)
    (client : Client σ Entry Err) (mv : List (modVulns Entry)) (s : σ) :
    fetchLoop flag dir client [] mv s = (Except.ok mv, s) := rfl

theorem fetchLoop_cons_local {σ Entry Err : Type} (flag : Bool) (dir : String)
    (client : Client σ Entry Err) (mod : Module) (rest : List Module)
    (mv : List (modVulns Entry)) (s : σ) (h : isLocal flag dir mod = true) :
    fetchLoop flag dir client (mod :: rest) mv s = fetchLoop flag dir client rest mv s := by
  rw [fetchLoop]
  simp [h]

theorem fetchLoop_cons_error {σ Entry Err : Type} (flag : Bool) (dir : String)
    (client : Client σ Entry Err) (mod : Module) (rest : List Module)
    (mv : List (modVulns Entry)) (s s' : σ) (err : Err) (h : isLocal flag dir mod = false)
    (hc : client.GetByModule s (lookupPath mod) = (Except.error err, s')) :
    fetchLoop flag dir client (mod :: rest) mv s = (Except.error err, s') := by
  rw [fetchLoop]
  simp only [h, Bool.false_eq_true, if_false]
  change (match client.GetByModule s (lookupPath mod) with
    | (Except.error err, s') => (Except.error err, s')
    | (Except.ok vulns, s') => _) = _
  rw [hc]

theorem fetchLoop_cons_ok {σ Entry Err : Type} (flag : Bool) (dir : String)
    (client : Client σ Entry Err) (mod : Module) (rest : List Module)
    (mv : List (modVulns Entry)) (s s' : σ) (vulns : List Entry)
    (h : isLocal flag dir mod = false)
    (hc : client.GetByModule s (lookupPath mod) = (Except.ok vulns, s')) :
    fetchLoop flag dir client (mod :: rest) mv s =
      if vulns.length = 0 then fetchLoop flag dir client rest mv s'
      else fetchLoop flag dir client rest (mv ++ [⟨mod, vulns⟩]) s' := by
  rw [fetchLoop]
  simp only [h, Bool.false_eq_true, if_false]
  change (match client.GetByModule s (lookupPath mod) with
    | (Except.error err, s') => (Except.error err, s')
    | (Except.ok vulns, s') => _) = _
  rw [hc]

theorem logClient_GetByModule {Entry Err : Type} (f : String → Except Err (List Entry))
    (log : List String) (path : String) :
    (logClient f).GetByModule log path = (f path, log ++ [path]) := rfl

theorem eligible_cons_local (flag : Bool) (dir : String) (m : Module) (rest : List Module)
    (h : isLocal flag dir m = true) : eligible flag dir (m :: rest) = eligible flag dir rest := by
  simp [eligible, h]

theorem eligible_cons_not_local (flag : Bool) (dir : String) (m : Module) (rest : List Module)
    (h : isLocal flag dir m = false) :
    eligible flag dir (m :: rest) = m :: eligible flag dir rest := by
  simp [eligible, h]

theorem mem_eligible (flag : Bool) (dir : String) (ms : List Module) (m : Module) :
    m ∈ eligible flag dir ms ↔ m ∈ ms ∧ isLocal flag dir m = false := by
  simp [eligible]

/-- A run over a list all of whose eligible lookups succeed: the collection and
the log of queries that it ends with. -/
theorem fetchLoop_log_ok {Entry Err : Type} (flag : Bool) (dir : String)
    (f : String → Except Err (List Entry)) (ms : List Module) :
    ∀ (mv : List (modVulns Entry)) (log : List String),
      (∀ m ∈ ms, isLocal flag dir m = false → ∃ vs, f (lookupPath m) = Except.ok vs) →
      fetchLoop flag dir (logClient f) ms mv log =
        (Except.ok (mv ++ ms.filterMap (entryOf flag dir f)),
          log ++ (eligible flag dir ms).map lookupPath) := by
  induction ms with
  | nil =>
    intro mv log _
    simp [fetchLoop_nil, eligible]
  | cons m rest ih =>
    intro mv log hok
    have hrest : ∀ m' ∈ rest, isLocal flag dir m' = false →
        ∃ vs, f (lookupPath m') = Except.ok vs :=
      fun m' hm' => hok m' (List.mem_cons_of_mem _ hm')
    cases hl : isLocal flag dir m with
    | true =>
      rw [fetchLoop_cons_local _ _ _ _ _ _ _ hl, ih mv log hrest,
        eligible_cons_local _ _ _ _ hl]
      simp [entryOf, hl]
    | false =>
      obtain ⟨vs, hvs⟩ := hok m (List.mem_cons_self _ _) hl
      rw [fetchLoop_cons_ok flag dir (logClient f) m rest mv log (log ++ [lookupPath m]) vs hl
        (by rw [logClient_GetByModule, hvs]), eligible_cons_not_local _ _ _ _ hl]
      by_cases hz : vs.length = 0
      · rw [if_pos hz, ih mv _ hrest]
        simp [entryOf, hl, hvs, hz]
      · rw [if_neg hz, ih _ _ hrest]
        simp [entryOf, hl, hvs, hz]

/-- A run that meets a failing lookup: the error and the log of queries that it
ends with. -/
theorem fetchLoop_log_error {Entry Err : Type} (flag : Bool) (dir : String)
    (f : String → Except Err (List Entry)) (pre : List Module) (m : Module)
    (post : List Module) (err : Err)
    (hm : isLocal flag dir m = false) (hf : f (lookupPath m) = Except.error err) :
    ∀ (mv : List (modVulns Entry)) (log : List String),
      (∀ m' ∈ pre, isLocal flag dir m' = false → ∃ vs, f (lookupPath m') = Except.ok vs) →
      fetchLoop flag dir (logClient f) (pre ++ m :: post) mv log =
        (Except.error err, log ++ (eligible flag dir pre).map lookupPath ++ [lookupPath m]) := by
  induction pre with
  | nil =>
    intro mv log _
    rw [List.nil_append, fetchLoop_cons_error flag dir (logClient f) m post mv log
      (log ++ [lookupPath m]) err hm (by rw [logClient_GetByModule, hf])]
    simp [eligible]
  | cons a rest ih =>
    intro mv log hok
    have hrest : ∀ m' ∈ rest, isLocal flag dir m' = false →
        ∃ vs, f (lookupPath m') = Except.ok vs :=
      fun m' hm' => hok m' (List.mem_cons_of_mem _ hm')
    rw [List.cons_append]
    cases hl : isLocal flag dir a with
    | true =>
      rw [fetchLoop_cons_local _ _ _ _ _ _ _ hl, ih mv log hrest,
        eligible_cons_local _ _ _ _ hl]
    | false =>
      obtain ⟨vs, hvs⟩ := hok a (List.mem_cons_self _ _) hl
      rw [fetchLoop_cons_ok flag dir (logClient f) a _ mv log (log ++ [lookupPath a]) vs hl
        (by rw [logClient_GetByModule, hvs]), eligible_cons_not_local _ _ _ _ hl]
      by_cases hz : vs.length = 0
      · rw [if_pos hz, ih mv _ hrest]
        simp
      · rw [if_neg hz, ih _ _ hrest]
        simp

/-- The first eligible module of a list whose lookup fails, when there is one. -/
theorem exists_first_failure {Entry Err : Type} (flag : Bool) (dir : String)
    (f : String → Except Err (List Entry)) (ms : List Module)
    (h : ∃ m ∈ ms, isLocal flag dir m = false ∧ ∃ err, f (lookupPath m) = Except.error err) :
    ∃ pre m post err, ms = pre ++ m :: post ∧ isLocal flag dir m = false ∧
      f (lookupPath m) = Except.error err ∧
      ∀ m' ∈ pre, isLocal flag dir m' = false → ∃ vs, f (lookupPath m') = Except.ok vs := by
  induction ms with
  | nil =>
    obtain ⟨m, hm, _⟩ := h
    cases hm
  | cons a rest ih =>
    by_cases ha : isLocal flag dir a = false ∧ ∃ err, f (lookupPath a) = Except.error err
    · obtain ⟨hl, err, herr⟩ := ha
      exact ⟨[], a, rest, err, rfl, hl, herr, fun _ h => by cases h⟩
    · have hrest : ∃ m ∈ rest, isLocal flag dir m = false ∧
          ∃ err, f (lookupPath m) = Except.error err := by
        obtain ⟨m, hm, hl, herr⟩ := h
        rcases List.mem_cons.1 hm with rfl | hm
        · exact absurd ⟨hl, herr⟩ ha
        · exact ⟨m, hm, hl, herr⟩
      obtain ⟨pre, m, post, err, hsplit, hl, herr, hpre⟩ := ih hrest
      refine ⟨a :: pre, m, post, err, by rw [hsplit]; rfl, hl, herr, ?_⟩
      intro m' hm' hl'
      rcases List.mem_cons.1 hm' with rfl | hm'
      · cases hfa : f (lookupPath m') with
        | ok vs => exact ⟨vs, rfl⟩
        | error e => exact absurd ⟨hl', e, hfa⟩ ha
      · exact hpre m' hm' hl'

/-- A run that succeeds has met no failing lookup. -/
theorem fetchLoop_log_ok_inv {Entry Err : Type} (flag : Bool) (dir : String)
    (f : String → Except Err (List Entry)) (ms : List Module)
    (mv r : List (modVulns Entry)) (log log' : List String)
    (h : fetchLoop flag dir (logClient f) ms mv log = (Except.ok r, log')) :
    ∀ m ∈ ms, isLocal flag dir m = false → ∃ vs, f (lookupPath m) = Except.ok vs := by
  by_contra hcon
  push_neg at hcon
  obtain ⟨m, hm, hl, hbad⟩ := hcon
  have hfail : ∃ m ∈ ms, isLocal flag dir m = false ∧
      ∃ err, f (lookupPath m) = Except.error err := by
    refine ⟨m, hm, hl, ?_⟩
    cases hfm : f (lookupPath m) with
    | ok vs => exact absurd hfm (hbad vs)
    | error e => exact ⟨e, rfl⟩
  obtain ⟨pre, m', post, err, hsplit, hl', herr, hpre⟩ :=
    exists_first_failure flag dir f ms hfail
  rw [hsplit, fetchLoop_log_error flag dir f pre m' post err hl' herr mv log hpre] at h
  cases h

/-- Local modules have no effect on a run, whatever the client. -/
theorem fetchLoop_eligible {σ Entry Err : Type} (flag : Bool) (dir : String)
    (client : Client σ Entry Err) (ms : List Module) :
    ∀ (mv : List (modVulns Entry)) (s : σ),
      fetchLoop flag dir client ms mv s = fetchLoop flag dir client (eligible flag dir ms) mv s := by
  induction ms with
  | nil => exact fun _ _ => rfl
  | cons m rest ih =>
    intro mv s
    cases hl : isLocal flag dir m with
    | true =>
      rw [fetchLoop_cons_local _ _ _ _ _ _ _ hl, eligible_cons_local _ _ _ _ hl, ih]
    | false =>
      rw [eligible_cons_not_local _ _ _ _ hl]
      rcases hc : client.GetByModule s (lookupPath m) with ⟨res, s'⟩
      cases res with
      | error err =>
        rw [fetchLoop_cons_error _ _ _ _ _ _ _ _ _ hl hc,
          fetchLoop_cons_error _ _ _ _ _ _ _ _ _ hl hc]
      | ok vs =>
        rw [fetchLoop_cons_ok _ _ _ _ _ _ _ _ _ hl hc, fetchLoop_cons_ok _ _ _ _ _ _ _ _ _ hl hc,
          ih, ih]

/-- Every entry of the collection of a successful run was there at the start or
carries an eligible module of the list, whatever the client. -/
theorem fetchLoop_mod_mem {σ Entry Err : Type} (flag : Bool) (dir : String)
    (client : Client σ Entry Err) (ms : List Module) :
    ∀ (mv r : List (modVulns Entry)) (s s' : σ),
      fetchLoop flag dir client ms mv s = (Except.ok r, s') →
      ∀ e ∈ r, e ∈ mv ∨ (e.mod ∈ ms ∧ isLocal flag dir e.mod = false) := by
  induction ms with
  | nil =>
    intro mv r s s' h e he
    rw [fetchLoop_nil] at h
    cases h
    exact Or.inl he
  | cons m rest ih =>
    intro mv r s s' h e he
    cases hl : isLocal flag dir m with
    | true =>
      rw [fetchLoop_cons_local _ _ _ _ _ _ _ hl] at h
      rcases ih mv r s s' h e he with h1 | ⟨h1, h2⟩
      · exact Or.inl h1
      · exact Or.inr ⟨List.mem_cons_of_mem _ h1, h2⟩
    | false =>
      rcases hc : client.GetByModule s (lookupPath m) with ⟨res, s1⟩
      cases res with
      | error err =>
        rw [fetchLoop_cons_error _ _ _ _ _ _ _ _ _ hl hc] at h
        cases h
      | ok vs =>
        rw [fetchLoop_cons_ok _ _ _ _ _ _ _ _ _ hl hc] at h
        by_cases hz : vs.length = 0
        · rw [if_pos hz] at h
          rcases ih mv r s1 s' h e he with h1 | ⟨h1, h2⟩
          · exact Or.inl h1
          · exact Or.inr ⟨List.mem_cons_of_mem _ h1, h2⟩
        · rw [if_neg hz] at h
          rcases ih _ r s1 s' h e he with h1 | ⟨h1, h2⟩
          · rcases List.mem_append.1 h1 with h3 | h3
            · exact Or.inl h3
            · rw [List.mem_singleton] at h3
              rw [h3]
              exact Or.inr ⟨List.mem_cons_self _ _, hl⟩
          · exact Or.inr ⟨List.mem_cons_of_mem _ h1, h2⟩

/-! ## Entries of the collection -/

theorem entryOf_eq_some {Entry Err : Type} (flag : Bool) (dir : String)
    (f : String → Except Err (List Entry)) (m : Module) (e : modVulns Entry) :
    entryOf flag dir f m = some e ↔
      isLocal flag dir m = false ∧ f (lookupPath m) = Except.ok e.vulns ∧ e.vulns ≠ [] ∧
        e.mod = m := by
  obtain ⟨em, ev⟩ := e
  unfold entryOf
  cases hl : isLocal flag dir m with
  | true => simp
  | false =>
    cases hf : f (lookupPath m) with
    | error err => simp
    | ok vs =>
      by_cases hz : vs = []
      · subst hz
        simp only [Bool.false_eq_true, if_false, List.length_nil, if_true, true_and,
          Except.ok.injEq, false_iff, not_and, ne_eq, reduceCtorEq]
        intro h1 h2
        exact absurd h1.symm h2
      · have hlen : ¬ vs.length = 0 := fun h => hz (List.length_eq_zero.1 h)
        simp only [Bool.false_eq_true, if_false, hlen, Option.some.injEq, modVulns.mk.injEq,
          true_and, Except.ok.injEq, ne_eq]
        constructor
        · rintro ⟨rfl, rfl⟩
          exact ⟨rfl, hz, rfl⟩
        · rintro ⟨rfl, _, rfl⟩
          exact ⟨rfl, rfl⟩

/-- A successful run from the empty collection and the empty log. -/
theorem fetchVulnerabilities_log_ok {Entry Err : Type} (flag : Bool) (dir : String)
    (f : String → Except Err (List Entry)) (ms : List Module)
    (r : List (modVulns Entry)) (log : List String)
    (h : fetchVulnerabilities flag dir (logClient f) [] ms = (Except.ok r, log)) :
    (∀ m ∈ ms, isLocal flag dir m = false → ∃ vs, f (lookupPath m) = Except.ok vs) ∧
      r = ms.filterMap (entryOf flag dir f) ∧ log = (eligible flag dir ms).map lookupPath := by
  have hok := fetchLoop_log_ok_inv flag dir f ms [] r [] log h
  refine ⟨hok, ?_⟩
  unfold fetchVulnerabilities at h
  rw [fetchLoop_log_ok flag dir f ms [] [] hok] at h
  simp only [List.nil_append, Prod.mk.injEq, Except.ok.injEq] at h
  exact ⟨h.1.symm, h.2.symm⟩

/-- The entries of module `M` among the entries of a list are as many as the
occurrences of `M` in the list, when `M` has an entry. -/
theorem length_filter_filterMap_entryOf {Entry Err : Type} (flag : Bool) (dir : String)
    (f : String → Except Err (List Entry)) (M : Module) (e : modVulns Entry)
    (hM : entryOf flag dir f M = some e) (ms : List Module) :
    ((ms.filterMap (entryOf flag dir f)).filter (fun x => x.mod = M)).length = ms.count M := by
  have heM : e.mod = M := ((entryOf_eq_some flag dir f M e).1 hM).2.2.2
  induction ms with
  | nil => rfl
  | cons a rest ih =>
    by_cases ha : a = M
    · subst ha
      rw [List.filterMap_cons_some hM, List.filter_cons_of_pos (by simpa using heM),
        List.length_cons, ih, List.count_cons_self]
    · rw [List.count_cons_of_ne (fun h => ha h.symm)]
      cases hea : entryOf flag dir f a with
      | none => rw [List.filterMap_cons_none hea, ih]
      | some e' =>
        have he' : e'.mod = a := ((entryOf_eq_some flag dir f a e').1 hea).2.2.2
        rw [List.filterMap_cons_some hea, List.filter_cons_of_neg, ih]
        simpa [he'] using ha

/-! ## Invariants carried through the walk -/

theorem foldlM_invariant {α β : Type} (P : α → Prop) (f : α → β → Option α) (l : List β)
    (hf : ∀ s i s', i ∈ l → f s i = some s' → P s → P s') :
    ∀ s s', l.foldlM f s = some s' → P s → P s' := by
  induction l with
  | nil =>
    intro s s' h hs
    simp only [List.foldlM_nil, Option.pure_def, Option.some.injEq] at h
    rw [← h]
    exact hs
  | cons i rest ih =>
    intro s s' h hs
    simp only [List.foldlM_cons, Option.bind_eq_bind, Option.bind_eq_some] at h
    obtain ⟨s1, h1, h2⟩ := h
    exact ih (fun s i s' hi => hf s i s' (List.mem_cons_of_mem _ hi)) s1 s' h2
      (hf s i s1 (List.mem_cons_self _ _) h1 hs)

/-- A property of the state that every marking step keeps, for packages of a set
`Q` closed under imports, is kept by `extract` called on a package of `Q`. -/
theorem extract_invariant {n : Nat} (H : Heap n) (Q : Fin n → Prop)
    (P : ExtractState n → Prop)
    (hQ : ∀ p q, Q p → some q ∈ (H p).Imports → Q q)
    (hP : ∀ st pkg, Q pkg → pkg ∉ st.seen → P st →
      P ⟨recordModule st.modMap (H pkg).Module, pkg :: st.seen⟩) :
    ∀ (fuel : Nat) (p : Option (Fin n)) (st st' : ExtractState n),
      (∀ q, p = some q → Q q) → extract H fuel p st = some st' → P st → P st' := by
  intro fuel
  induction fuel with
  | zero =>
    intro p st st' _ h
    simp [extract] at h
  | succ fuel ih =>
    intro p st st' hp h hst
    cases p with
    | none =>
      simp only [extract, Option.some.injEq] at h
      rw [← h]
      exact hst
    | some pkg =>
      rw [extract_succ_some] at h
      by_cases hs : pkg ∈ st.seen
      · simp only [hs, if_true, Option.some.injEq] at h
        rw [← h]
        exact hst
      · simp only [hs, if_false] at h
        refine foldlM_invariant P (fun s imp => extract H fuel imp s) (H pkg).Imports ?_ _ _ h
          (hP st pkg (hp pkg rfl) hs hst)
        intro s i s' hi hrun hPs
        refine ih i s s' ?_ hrun hPs
        intro q hq
        rw [hq] at hi
        exact hQ pkg q (hp pkg rfl) hi

theorem extractRoots_invariant {n : Nat} (H : Heap n) (Q : Fin n → Prop)
    (P : ExtractState n → Prop)
    (hQ : ∀ p q, Q p → some q ∈ (H p).Imports → Q q)
    (hP : ∀ st pkg, Q pkg → pkg ∉ st.seen → P st →
      P ⟨recordModule st.modMap (H pkg).Module, pkg :: st.seen⟩)
    (fuel : Nat) (pkgs : List (Option (Fin n))) (hroots : ∀ q, some q ∈ pkgs → Q q)
    (st : ExtractState n) (h : extractRoots H fuel pkgs = some st)
    (h0 : P ⟨[], []⟩) : P st := by
  refine foldlM_invariant P (fun s pkg => extract H fuel pkg s) pkgs ?_ _ _ h h0
  intro s i s' hi hrun hPs
  refine extract_invariant H Q P hQ hP fuel i s s' ?_ hrun hPs
  intro q hq
  rw [hq] at hi
  exact hroots q hi

/-- Every package that the walk has marked is reachable from a root. -/
theorem extractRoots_seen_reachable {n : Nat} (H : Heap n) (fuel : Nat)
    (pkgs : List (Option (Fin n))) (st : ExtractState n)
    (h : extractRoots H fuel pkgs = some st) : ∀ q, q ∈ st.seen → Reachable H pkgs q := by
  refine extractRoots_invariant H (Reachable H pkgs) (fun s => ∀ q, q ∈ s.seen → Reachable H pkgs q)
    (fun p q hp hq => Reachable.step hp hq) ?_ fuel pkgs (fun q hq => Reachable.root hq) st h
    (fun q hq => by cases hq)
  intro s pkg hpkg _ hs q hq
  rcases List.mem_cons.1 hq with rfl | hq
  · exact hpkg
  · exact hs q hq

theorem extractRoots_seen_iff {n : Nat} (H : Heap n) (fuel : Nat)
    (pkgs : List (Option (Fin n))) (st : ExtractState n)
    (h : extractRoots H fuel pkgs = some st) (q : Fin n) :
    q ∈ st.seen ↔ Reachable H pkgs q :=
  ⟨extractRoots_seen_reachable H fuel pkgs st h q, extractRoots_reachable H fuel pkgs st h q⟩

/-- No package is marked twice. -/
theorem extractRoots_seen_nodup {n : Nat} (H : Heap n) (fuel : Nat)
    (pkgs : List (Option (Fin n))) (st : ExtractState n)
    (h : extractRoots H fuel pkgs = some st) : st.seen.Nodup := by
  refine extractRoots_invariant H (fun _ => True) (fun s => s.seen.Nodup)
    (fun _ _ _ _ => trivial) ?_ fuel pkgs (fun _ _ => trivial) st h List.nodup_nil
  intro s pkg _ hpkg hs
  exact List.nodup_cons.2 ⟨hpkg, hs⟩

/-- Every module of the final map is the owning module of a reachable package. -/
theorem extractRoots_origin {n : Nat} (H : Heap n) (fuel : Nat)
    (pkgs : List (Option (Fin n))) (st : ExtractState n)
    (h : extractRoots H fuel pkgs = some st) (e : String × Module) (he : e ∈ st.modMap) :
    ∃ p, Reachable H pkgs p ∧ (H p).Module = some e.2 := by
  rcases (extractRoots_step H fuel pkgs st h).1.origin e he with h0 | ⟨q, hq, _, hm⟩
  · cases h0
  · exact ⟨q, extractRoots_seen_reachable H fuel pkgs st h q hq, hm⟩

/-! ## Lemmas for the example -/

theorem perm_pair {α : Type} {a b : α} (hab : a ≠ b) {out : List α}
    (h : out.Perm [a, b]) : out = [a, b] ∨ out = [b, a] := by
  have hlen : out.length = 2 := h.length_eq
  have hnodup : out.Nodup := h.nodup_iff.2 (by simp [hab])
  match out, hlen, hnodup, h with
  | [x, y], _, hn, hp =>
    have hx : x = a ∨ x = b := by simpa using hp.mem_iff.1 (List.mem_cons_self _ _)
    have hy : y = a ∨ y = b := by
      simpa using hp.mem_iff.1 (List.mem_cons_of_mem _ (List.mem_cons_self _ _))
    have hxy : x ≠ y := by
      intro hxy
      simp [hxy] at hn
    rcases hx with rfl | rfl <;> rcases hy with rfl | rfl
    · exact absurd rfl hxy
    · exact Or.inl rfl
    · exact Or.inr rfl
    · exact absurd rfl hxy

theorem exampleHeap_extractRoots (x y : Module) (hxy : effectiveKey x ≠ effectiveKey y) :
    extractRoots (exampleHeap x y) 3 [some 0] =
      some ⟨[(effectiveKey x, x), (effectiveKey y, y)], [1, 0]⟩ := by
  have e3 : ∀ pkg st, extract (exampleHeap x y) 3 (some pkg) st = _ :=
    fun pkg st => extract_succ_some (exampleHeap x y) 2 pkg st
  have e2 : ∀ pkg st, extract (exampleHeap x y) 2 (some pkg) st = _ :=
    fun pkg st => extract_succ_some (exampleHeap x y) 1 pkg st
  simp [extractRoots, e3, e2, exampleHeap, recordModule_some, ModMap.set, hxy]

theorem extractModulesReturns_of_eq {n : Nat} (H : Heap n) (fuel : Nat)
    (pkgs : List (Option (Fin n))) (st : ExtractState n)
    (h : extractRoots H fuel pkgs = some st) (out : List Module) :
    extractModulesReturns H pkgs out ↔ out.Perm st.modMap.values := by
  constructor
  · rintro ⟨fuel', ms, hms, hperm⟩
    simp only [extractModules, Option.map_eq_some'] at hms
    obtain ⟨st', hst', rfl⟩ := hms
    rw [extractRoots_fuel_unique H fuel fuel' pkgs st st' h hst']
    exact hperm
  · intro hperm
    exact ⟨fuel, st.modMap.values, by simp [extractModules, h], hperm⟩

/-! ## Order of the result and of the queries -/

theorem sublist_map_mod_filterMap_entryOf {Entry Err : Type} (flag : Bool) (dir : String)
    (f : String → Except Err (List Entry)) (ms : List Module) :
    ((ms.filterMap (entryOf flag dir f)).map (fun e => e.mod)).Sublist ms := by
  induction ms with
  | nil => exact List.Sublist.slnil
  | cons a rest ih =>
    cases hea : entryOf flag dir f a with
    | none =>
      rw [List.filterMap_cons_none hea]
      exact List.Sublist.cons a ih
    | some e =>
      have he : e.mod = a := ((entryOf_eq_some flag dir f a e).1 hea).2.2.2
      rw [List.filterMap_cons_some hea, List.map_cons, he]
      exact List.Sublist.cons₂ a ih

/-- A successful run of a logged client: what is appended to the log, and the run
of the client itself. -/
theorem fetchLoop_withLog_ok {σ Entry Err : Type} (flag : Bool) (dir : String)
    (c : Client σ Entry Err) (ms : List Module) :
    ∀ (mv r : List (modVulns Entry)) (s s' : σ) (log log' : List String),
      fetchLoop flag dir (withLog c) ms mv (s, log) = (Except.ok r, (s', log')) →
      log' = log ++ (eligible flag dir ms).map lookupPath ∧
        fetchLoop flag dir c ms mv s = (Except.ok r, s') := by
  induction ms with
  | nil =>
    intro mv r s s' log log' h
    rw [fetchLoop_nil] at h
    simp only [Prod.mk.injEq, Except.ok.injEq] at h
    obtain ⟨rfl, rfl, rfl⟩ := h
    exact ⟨by simp [eligible], rfl⟩
  | cons m rest ih =>
    intro mv r s s' log log' h
    cases hl : isLocal flag dir m with
    | true =>
      rw [fetchLoop_cons_local _ _ _ _ _ _ _ hl] at h
      rw [fetchLoop_cons_local _ _ _ _ _ _ _ hl, eligible_cons_local _ _ _ _ hl]
      exact ih mv r s s' log log' h
    | false =>
      rcases hc : c.GetByModule s (lookupPath m) with ⟨res, s1⟩
      have hw : (withLog c).GetByModule (s, log) (lookupPath m) =
          (res, (s1, log ++ [lookupPath m])) := by
        simp [withLog, hc]
      cases res with
      | error err =>
        rw [fetchLoop_cons_error _ _ _ _ _ _ _ _ _ hl hw] at h
        cases h
      | ok vs =>
        rw [fetchLoop_cons_ok _ _ _ _ _ _ _ _ _ hl hw] at h
        rw [fetchLoop_cons_ok _ _ _ _ _ _ _ _ _ hl hc, eligible_cons_not_local _ _ _ _ hl]
        by_cases hz : vs.length = 0
        · rw [if_pos hz] at h ⊢
          obtain ⟨h1, h2⟩ := ih mv r s1 s' _ log' h
          exact ⟨by rw [h1]; simp, h2⟩
        · rw [if_neg hz] at h ⊢
          obtain ⟨h1, h2⟩ := ih _ r s1 s' _ log' h
          exact ⟨by rw [h1]; simp, h2⟩

/-! ## Nil packages -/

theorem extract_none_eq {n : Nat} (H : Heap n) (fuel : Nat) (st st' : ExtractState n)
    (h : extract H fuel none st = some st') : st' = st := by
  cases fuel with
  | zero => simp [extract] at h
  | succ k =>
    simp only [extract, Option.some.injEq] at h
    exact h.symm

/-- Removing the nil entries of a list does not change a loop whose body does
nothing on nil. -/
theorem foldlM_filter_isSome {α β : Type} (f g : α → Option β → Option α)
    (hnone : ∀ s s', f s none = some s' → s' = s)
    (hfg : ∀ s i s', f s i = some s' → g s i = some s') (l : List (Option β)) :
    ∀ s s', l.foldlM f s = some s' →
      (l.filter (fun i => i.isSome)).foldlM g s = some s' := by
  induction l with
  | nil => exact fun s s' h => h
  | cons i rest ih =>
    intro s s' h
    simp only [List.foldlM_cons, Option.bind_eq_bind, Option.bind_eq_some] at h
    obtain ⟨s1, h1, h2⟩ := h
    cases i with
    | none =>
      rw [hnone s s1 h1] at h2
      simpa using ih s s' h2
    | some b =>
      simp only [List.filter_cons, Option.isSome_some, if_true, List.foldlM_cons,
        Option.bind_eq_bind, Option.bind_eq_some]
      exact ⟨s1, hfg s (some b) s1 h1, ih s1 s' h2⟩

theorem extract_dropNil {n : Nat} (H : Heap n) :
    ∀ (fuel : Nat) (p : Option (Fin n)) (st st' : ExtractState n),
      extract H fuel p st = some st' → extract (dropNil H) fuel p st = some st' := by
  intro fuel
  induction fuel with
  | zero =>
    intro p st st' h
    simp [extract] at h
  | succ fuel ih =>
    intro p st st' h
    cases p with
    | none => exact h
    | some pkg =>
      rw [extract_succ_some] at h ⊢
      by_cases hs : pkg ∈ st.seen
      · simpa [hs] using h
      · simp only [hs, if_false] at h ⊢
        exact foldlM_filter_isSome (fun s imp => extract H fuel imp s)
          (fun s imp => extract (dropNil H) fuel imp s)
          (fun s s' => extract_none_eq H fuel s s') (fun s i s' => ih i s s') _ _ _ h

theorem extractRoots_dropNil {n : Nat} (H : Heap n) (fuel : Nat)
    (pkgs : List (Option (Fin n))) (st : ExtractState n)
    (h : extractRoots H fuel pkgs = some st) :
    extractRoots (dropNil H) fuel (pkgs.filter (fun i => i.isSome)) = some st :=
  foldlM_filter_isSome (fun s pkg => extract H fuel pkg s)
    (fun s pkg => extract (dropNil H) fuel pkg s)
    (fun s s' => extract_none_eq H fuel s s') (fun s i s' => extract_dropNil H fuel i s s')
    pkgs _ st h

theorem extractRoots_all_nil {n : Nat} (H : Heap n) (fuel : Nat) (hfuel : 0 < fuel)
    (pkgs : List (Option (Fin n))) (hnil : ∀ p ∈ pkgs, p = none) :
    extractRoots H fuel pkgs = some ⟨[], []⟩ := by
  obtain ⟨k, rfl⟩ : ∃ k, fuel = k + 1 := ⟨fuel - 1, by omega⟩
  unfold extractRoots
  generalize (⟨[], []⟩ : ExtractState n) = st
  induction pkgs with
  | nil => rfl
  | cons p rest ih =>
    have hp : p = none := hnil p (List.mem_cons_self _ _)
    subst hp
    simp only [List.foldlM_cons, extract, Option.bind_eq_bind, Option.some_bind]
    exact ih (fun q hq => hnil q (List.mem_cons_of_mem _ hq))

/-! ## Lookup in the module map -/

theorem ModMap.get_set_self (mm : ModMap) (k : String) (v : Module) :
    ModMap.get (ModMap.set mm k v) k = some v := by
  induction mm with
  | nil => simp [ModMap.set, ModMap.get]
  | cons e rest ih =>
    obtain ⟨ke, ve⟩ := e
    unfold ModMap.set
    by_cases h : ke = k
    · simp [h, ModMap.get]
    · simp [h, ModMap.get, ih]

theorem ModMap.get_set_ne (mm : ModMap) (k k' : String) (v : Module) (hk : k ≠ k') :
    ModMap.get (ModMap.set mm k v) k' = ModMap.get mm k' := by
  induction mm with
  | nil => simp [ModMap.set, ModMap.get, hk]
  | cons e rest ih =>
    obtain ⟨ke, ve⟩ := e
    unfold ModMap.set
    by_cases h : ke = k
    · subst h
      simp [ModMap.get, hk]
    · simp only [h, if_false, ModMap.get, ih]

theorem ModMap.mem_of_get (mm : ModMap) (k : String) (v : Module)
    (h : ModMap.get mm k = some v) : (k, v) ∈ mm := by
  induction mm with
  | nil => simp [ModMap.get] at h
  | cons e rest ih =>
    obtain ⟨ke, ve⟩ := e
    unfold ModMap.get at h
    by_cases hk : ke = k
    · simp only [hk, if_true, Option.some.injEq] at h
      rw [hk, h]
      exact List.mem_cons_self _ _
    · simp only [hk, if_false] at h
      exact List.mem_cons_of_mem _ (ih h)

theorem ModMap.get_of_mem (mm : ModMap) (hnodup : mm.keys.Nodup) (k : String) (v : Module)
    (h : (k, v) ∈ mm) : ModMap.get mm k = some v := by
  induction mm with
  | nil => cases h
  | cons e rest ih =>
    obtain ⟨ke, ve⟩ := e
    have hcons : ke ∉ ModMap.keys rest ∧ (ModMap.keys rest).Nodup := by
      simpa [ModMap.keys] using hnodup
    unfold ModMap.get
    rcases List.mem_cons.1 h with h1 | h1
    · cases h1
      simp
    · have hne : ke ≠ k := by
        rintro rfl
        exact hcons.1 (List.mem_map_of_mem Prod.fst h1)
      simp only [hne, if_false]
      exact ih hcons.2 h1

/-! ## The visit order -/

theorem foldlM_simulation {α β γ : Type} (φ : α → γ) (f : α → β → Option α)
    (g : γ → β → Option γ) (hfg : ∀ s i s', f s i = some s' → g (φ s) i = some (φ s'))
    (l : List β) :
    ∀ s s', l.foldlM f s = some s' → l.foldlM g (φ s) = some (φ s') := by
  induction l with
  | nil =>
    intro s s' h
    simp only [List.foldlM_nil, Option.pure_def, Option.some.injEq] at h ⊢
    rw [h]
  | cons i rest ih =>
    intro s s' h
    simp only [List.foldlM_cons, Option.bind_eq_bind, Option.bind_eq_some] at h ⊢
    obtain ⟨s1, h1, h2⟩ := h
    exact ⟨φ s1, hfg s i s1 h1, ih s1 s' h2⟩

/-- The packages marked by `extract`, earliest first, are the depth-first
pre-order of first visits. -/
theorem extract_dfsPreorder {n : Nat} (H : Heap n) :
    ∀ (fuel : Nat) (p : Option (Fin n)) (st st' : ExtractState n),
      extract H fuel p st = some st' →
        dfsPreorder H fuel p st.seen.reverse = some st'.seen.reverse := by
  intro fuel
  induction fuel with
  | zero =>
    intro p st st' h
    simp [extract] at h
  | succ fuel ih =>
    intro p st st' h
    cases p with
    | none =>
      simp only [extract, Option.some.injEq] at h
      rw [← h]
      rfl
    | some pkg =>
      rw [extract_succ_some] at h
      unfold dfsPreorder
      by_cases hs : pkg ∈ st.seen
      · simp only [hs, if_true, Option.some.injEq] at h
        rw [← h]
        simp [hs]
      · simp only [hs, if_false] at h
        simp only [List.mem_reverse, hs, if_false]
        have hsim := foldlM_simulation (fun s : ExtractState n => s.seen.reverse)
          (fun s imp => extract H fuel imp s) (fun v imp => dfsPreorder H fuel imp v)
          (fun s i s' => ih i s s') (H pkg).Imports _ st' h
        simpa using hsim

theorem extractRoots_dfsPreorder {n : Nat} (H : Heap n) (fuel : Nat)
    (pkgs : List (Option (Fin n))) (st : ExtractState n)
    (h : extractRoots H fuel pkgs = some st) :
    dfsPreorderRoots H fuel pkgs = some st.seen.reverse :=
  foldlM_simulation (fun s : ExtractState n => s.seen.reverse)
    (fun s pkg => extract H fuel pkg s) (fun v pkg => dfsPreorder H fuel pkg v)
    (fun s i s' => extract_dfsPreorder H fuel i s s') pkgs _ st h

theorem getLast?_filter_reverse {α : Type} (p : α → Bool) (l : List α) :
    (l.reverse.filter p).getLast? = l.find? p := by
  rw [List.filter_reverse, List.getLast?_reverse]
  induction l with
  | nil => rfl
  | cons a rest ih =>
    by_cases ha : p a = true
    · simp [List.filter_cons, ha, List.find?_cons]
    · simp only [Bool.not_eq_true] at ha
      simp [List.filter_cons, ha, List.find?_cons, ih]

/-- The entry of every key is the module of the most recently marked package
whose module has that effective key. -/
theorem extractRoots_get {n : Nat} (H : Heap n) (fuel : Nat)
    (pkgs : List (Option (Fin n))) (st : ExtractState n)
    (h : extractRoots H fuel pkgs = some st) (k : String) :
    st.modMap.get k =
      (st.seen.find? (fun p => keyOf H p = some k)).bind (fun p => (H p).Module) := by
  refine extractRoots_invariant H (fun _ => True)
    (fun s => ∀ k, s.modMap.get k =
      (s.seen.find? (fun p => keyOf H p = some k)).bind (fun p => (H p).Module))
    (fun _ _ _ _ => trivial) ?_ fuel pkgs (fun _ _ => trivial) st h (fun _ => rfl) k
  intro s pkg _ _ hs k'
  cases hm : (H pkg).Module with
  | none =>
    have hkey : keyOf H pkg = none := by simp [keyOf, hm]
    simp only [recordModule, List.find?_cons, hkey, reduceCtorEq, decide_False]
    exact hs k'
  | some m =>
    have hkey : keyOf H pkg = some (effectiveKey m) := by simp [keyOf, hm]
    rw [recordModule_some]
    by_cases hk : effectiveKey m = k'
    · subst hk
      simp [List.find?_cons, hkey, ModMap.get_set_self, hm]
    · simp only [List.find?_cons, hkey, Option.some.injEq, hk, decide_False]
      rw [ModMap.get_set_ne _ _ _ _ hk]
      exact hs k'

/-! ## Returned lists -/

theorem extractModulesReturns_inv {n : Nat} {H : Heap n} {pkgs : List (Option (Fin n))}
    {out : List Module} (h : extractModulesReturns H pkgs out) :
    ∃ fuel st, extractRoots H fuel pkgs = some st ∧ MapInv st.modMap ∧
      out.Perm st.modMap.values := by
  obtain ⟨fuel, ms, hms, hperm⟩ := h
  simp only [extractModules, Option.map_eq_some'] at hms
  obtain ⟨st, hst, rfl⟩ := hms
  exact ⟨fuel, st, hst, extractRoots_inv H fuel pkgs st hst, hperm⟩

/-! ## The keys of the result -/

/-- The effective keys of a returned list are the effective keys of the owning
modules of the reachable packages. -/
theorem mem_keys_iff_reachable {n : Nat} (H : Heap n) (pkgs : List (Option (Fin n)))
    (out : List Module) (hout : extractModulesReturns H pkgs out) (k : String) :
    k ∈ out.map effectiveKey ↔
      ∃ p m, Reachable H pkgs p ∧ (H p).Module = some m ∧ effectiveKey m = k := by
  obtain ⟨fuel, st, hst, hinv, hperm⟩ := extractModulesReturns_inv hout
  rw [(hperm.map effectiveKey).mem_iff, hinv.values_keys]
  constructor
  · intro hk
    simp only [ModMap.keys, List.mem_map] at hk
    obtain ⟨e, he, rfl⟩ := hk
    obtain ⟨p, hp, hm⟩ := extractRoots_origin H fuel pkgs st hst e he
    exact ⟨p, e.2, hp, hm, (hinv.2 e he).symm⟩
  · rintro ⟨p, m, hp, hm, rfl⟩
    exact extractRoots_keyed H fuel pkgs st hst p hp m hm

theorem Reachable.mono {n : Nat} {H H' : Heap n} {pkgs pkgs' : List (Option (Fin n))}
    (hroots : ∀ p, some p ∈ pkgs → some p ∈ pkgs')
    (himps : ∀ p q, some q ∈ (H p).Imports → some q ∈ (H' p).Imports)
    {p : Fin n} (hp : Reachable H pkgs p) : Reachable H' pkgs' p := by
  induction hp with
  | root h => exact Reachable.root (hroots _ h)
  | step _ hedge ih => exact Reachable.step ih (himps _ _ hedge)

/-- Two graphs with the same reachable packages and the same owning modules on
them give the same set of effective keys. -/
theorem keys_eq_of_reachable_eq {n : Nat} (H H' : Heap n)
    (pkgs pkgs' : List (Option (Fin n))) (out out' : List Module)
    (hout : extractModulesReturns H pkgs out) (hout' : extractModulesReturns H' pkgs' out')
    (hreach : ∀ p, Reachable H pkgs p ↔ Reachable H' pkgs' p)
    (hmod : ∀ p, Reachable H pkgs p → (H' p).Module = (H p).Module) (k : String) :
    k ∈ out.map effectiveKey ↔ k ∈ out'.map effectiveKey := by
  rw [mem_keys_iff_reachable H pkgs out hout, mem_keys_iff_reachable H' pkgs' out' hout']
  constructor
  · rintro ⟨p, m, hp, hm, hk⟩
    exact ⟨p, m, (hreach p).1 hp, by rw [hmod p hp]; exact hm, hk⟩
  · rintro ⟨p, m, hp, hm, hk⟩
    have hp' := (hreach p).2 hp
    exact ⟨p, m, hp', by rw [← hmod p hp']; exact hm, hk⟩

/-! ## Injectivity of the key -/

theorem append_cons_inj {α : Type} (c : α) :
    ∀ (l1 l2 r1 r2 : List α), c ∉ l1 → c ∉ l2 → l1 ++ c :: r1 = l2 ++ c :: r2 →
      l1 = l2 ∧ r1 = r2 := by
  intro l1
  induction l1 with
  | nil =>
    intro l2 r1 r2 _ h2 h
    cases l2 with
    | nil =>
      simp only [List.nil_append, List.cons.injEq, true_and] at h
      exact ⟨rfl, h⟩
    | cons x xs =>
      simp only [List.nil_append, List.cons_append, List.cons.injEq] at h
      exact absurd (by rw [h.1]; exact List.mem_cons_self _ _) h2
  | cons y ys ih =>
    intro l2 r1 r2 h1 h2 h
    cases l2 with
    | nil =>
      simp only [List.nil_append, List.cons_append, List.cons.injEq] at h
      exact absurd (by rw [← h.1]; exact List.mem_cons_self _ _) h1
    | cons x xs =>
      simp only [List.cons_append, List.cons.injEq] at h
      obtain ⟨hxy, hrest⟩ := h
      obtain ⟨h3, h4⟩ := ih xs r1 r2 (fun hc => h1 (List.mem_cons_of_mem _ hc))
        (fun hc => h2 (List.mem_cons_of_mem _ hc)) hrest
      exact ⟨by rw [hxy, h3], h4⟩

theorem modKey_some_data (m : Module) :
    (modKey (some m)).data = m.Path.data ++ '@' :: m.Version.data := by
  simp [modKey, String.data_append]

/-! ## Fail-fast for an arbitrary client -/

/-- A run over the first part of a list that succeeds is continued by the run
over the rest, from the collection and the client state it ended with. -/
theorem fetchLoop_append_ok {σ Entry Err : Type} (flag : Bool) (dir : String)
    (c : Client σ Entry Err) (pre rest : List Module) :
    ∀ (mv r : List (modVulns Entry)) (s s1 : σ),
      fetchLoop flag dir c pre mv s = (Except.ok r, s1) →
      fetchLoop flag dir c (pre ++ rest) mv s = fetchLoop flag dir c rest r s1 := by
  induction pre with
  | nil =>
    intro mv r s s1 h
    rw [fetchLoop_nil] at h
    simp only [Prod.mk.injEq, Except.ok.injEq] at h
    obtain ⟨rfl, rfl⟩ := h
    rfl
  | cons a pre ih =>
    intro mv r s s1 h
    rw [List.cons_append]
    cases hl : isLocal flag dir a with
    | true =>
      rw [fetchLoop_cons_local _ _ _ _ _ _ _ hl] at h ⊢
      exact ih mv r s s1 h
    | false =>
      rcases hc : c.GetByModule s (lookupPath a) with ⟨res, s2⟩
      cases res with
      | error err =>
        rw [fetchLoop_cons_error _ _ _ _ _ _ _ _ _ hl hc] at h
        cases h
      | ok vs =>
        rw [fetchLoop_cons_ok _ _ _ _ _ _ _ _ _ hl hc] at h ⊢
        by_cases hz : vs.length = 0
        · rw [if_pos hz] at h ⊢
          exact ih mv r s2 s1 h
        · rw [if_neg hz] at h ⊢
          exact ih _ r s2 s1 h

/-- A successful run of a client is a successful run of the logged client, which
appends the lookup paths of the modules that are not local. -/
theorem fetchLoop_withLog_of_ok {σ Entry Err : Type} (flag : Bool) (dir : String)
    (c : Client σ Entry Err) (ms : List Module) :
    ∀ (mv r : List (modVulns Entry)) (s s1 : σ) (log : List String),
      fetchLoop flag dir c ms mv s = (Except.ok r, s1) →
      fetchLoop flag dir (withLog c) ms mv (s, log) =
        (Except.ok r, (s1, log ++ (eligible flag dir ms).map lookupPath)) := by
  induction ms with
  | nil =>
    intro mv r s s1 log h
    rw [fetchLoop_nil] at h
    simp only [Prod.mk.injEq, Except.ok.injEq] at h
    obtain ⟨rfl, rfl⟩ := h
    simp [fetchLoop_nil, eligible]
  | cons a rest ih =>
    intro mv r s s1 log h
    cases hl : isLocal flag dir a with
    | true =>
      rw [fetchLoop_cons_local _ _ _ _ _ _ _ hl] at h
      rw [fetchLoop_cons_local _ _ _ _ _ _ _ hl, eligible_cons_local _ _ _ _ hl]
      exact ih mv r s s1 log h
    | false =>
      rcases hc : c.GetByModule s (lookupPath a) with ⟨res, s2⟩
      have hw : (withLog c).GetByModule (s, log) (lookupPath a) =
          (res, (s2, log ++ [lookupPath a])) := by
        simp [withLog, hc]
      cases res with
      | error err =>
        rw [fetchLoop_cons_error _ _ _ _ _ _ _ _ _ hl hc] at h
        cases h
      | ok vs =>
        rw [fetchLoop_cons_ok _ _ _ _ _ _ _ _ _ hl hc] at h
        rw [fetchLoop_cons_ok _ _ _ _ _ _ _ _ _ hl hw, eligible_cons_not_local _ _ _ _ hl]
        by_cases hz : vs.length = 0
        · rw [if_pos hz] at h ⊢
          rw [ih mv r s2 s1 _ h]
          simp
        · rw [if_neg hz] at h ⊢
          rw [ih _ r s2 s1 _ h]
          simp

/-- A run that ends with an error has met a failing lookup, after a successful
run over the modules before it. -/
theorem fetchLoop_error_split {σ Entry Err : Type} (flag : Bool) (dir : String)
    (c : Client σ Entry Err) (ms : List Module) :
    ∀ (mv : List (modVulns Entry)) (s s' : σ) (err : Err),
      fetchLoop flag dir c ms mv s = (Except.error err, s') →
      ∃ pre m post r s1, ms = pre ++ m :: post ∧
        fetchLoop flag dir c pre mv s = (Except.ok r, s1) ∧ isLocal flag dir m = false ∧
        c.GetByModule s1 (lookupPath m) = (Except.error err, s') := by
  induction ms with
  | nil =>
    intro mv s s' err h
    rw [fetchLoop_nil] at h
    cases h
  | cons a rest ih =>
    intro mv s s' err h
    cases hl : isLocal flag dir a with
    | true =>
      rw [fetchLoop_cons_local _ _ _ _ _ _ _ hl] at h
      obtain ⟨pre, m, post, r, s1, hsplit, hpre, hm, hcall⟩ := ih mv s s' err h
      refine ⟨a :: pre, m, post, r, s1, by rw [hsplit]; rfl, ?_, hm, hcall⟩
      rw [fetchLoop_cons_local _ _ _ _ _ _ _ hl]
      exact hpre
    | false =>
      rcases hc : c.GetByModule s (lookupPath a) with ⟨res, s2⟩
      cases res with
      | error e =>
        rw [fetchLoop_cons_error _ _ _ _ _ _ _ _ _ hl hc] at h
        simp only [Prod.mk.injEq, Except.error.injEq] at h
        obtain ⟨rfl, rfl⟩ := h
        exact ⟨[], a, rest, mv, s, rfl, fetchLoop_nil _ _ _ _ _, hl, hc⟩
      | ok vs =>
        rw [fetchLoop_cons_ok _ _ _ _ _ _ _ _ _ hl hc] at h
        by_cases hz : vs.length = 0
        · rw [if_pos hz] at h
          obtain ⟨pre, m, post, r, s1, hsplit, hpre, hm, hcall⟩ := ih mv s2 s' err h
          refine ⟨a :: pre, m, post, r, s1, by rw [hsplit]; rfl, ?_, hm, hcall⟩
          rw [fetchLoop_cons_ok _ _ _ _ _ _ _ _ _ hl hc, if_pos hz]
          exact hpre
        · rw [if_neg hz] at h
          obtain ⟨pre, m, post, r, s1, hsplit, hpre, hm, hcall⟩ := ih _ s2 s' err h
          refine ⟨a :: pre, m, post, r, s1, by rw [hsplit]; rfl, ?_, hm, hcall⟩
          rw [fetchLoop_cons_ok _ _ _ _ _ _ _ _ _ hl hc, if_neg hz]
          exact hpre

/-! ## Claims on extractModules -/

/-- C1: in every list that `extractModules` can return, entries at two different
positions have different effective identity keys. -/
theorem extractModules_effectiveKey_unique {n : Nat} (H : Heap n)
    (pkgs : List (Option (Fin n))) (out : List Module)
    (h : extractModulesReturns H pkgs out) (i j : Fin out.length) (hij : i ≠ j) :
    effectiveKey (out.get i) ≠ effectiveKey (out.get j) := by
  obtain ⟨fuel, st, _, hinv, hperm⟩ := extractModulesReturns_inv h
  have hnodup : (out.map effectiveKey).Nodup :=
    ((hperm.map effectiveKey).nodup_iff).2 hinv.nodup_values
  intro heq
  have hinj := List.nodup_iff_injective_get.1 hnodup
  have hlen : (out.map effectiveKey).length = out.length := List.length_map _ _
  have := @hinj ⟨i.1, by rw [hlen]; exact i.2⟩ ⟨j.1, by rw [hlen]; exact j.2⟩
    (by simpa using heq)
  apply hij
  apply Fin.ext
  simpa using this

theorem extractModules_effectiveKey_unique_witness :
    extractModulesReturns diamondHeap [some 0, none, some 3] [modY, modX] ∧
      effectiveKey ([modY, modX].get ⟨0, by decide⟩) ≠
        effectiveKey ([modY, modX].get ⟨1, by decide⟩) :=
  ⟨⟨5, [modX, modY], by decide, List.Perm.swap _ _ _⟩,
    extractModules_effectiveKey_unique diamondHeap [some 0, none, some 3] [modY, modX]
      ⟨5, [modX, modY], by decide, List.Perm.swap _ _ _⟩ ⟨0, by decide⟩ ⟨1, by decide⟩
      (by decide)⟩

/-- C2: when a package reachable from a non-nil root has an owning module `m`,
every list that `extractModules` can return has exactly one entry whose
effective identity key is the effective identity key of `m`. -/
theorem extractModules_reachable_once {n : Nat} (H : Heap n)
    (pkgs : List (Option (Fin n))) (out : List Module)
    (h : extractModulesReturns H pkgs out) (p : Fin n) (hp : Reachable H pkgs p)
    (m : Module) (hm : (H p).Module = some m) :
    out.countP (fun e => effectiveKey e = effectiveKey m) = 1 := by
  obtain ⟨fuel, st, hst, hinv, hperm⟩ := extractModulesReturns_inv h
  have hkey : effectiveKey m ∈ st.modMap.keys := extractRoots_keyed H fuel pkgs st hst p hp m hm
  rw [hperm.countP_eq]
  have hcount : (st.modMap.values.map effectiveKey).count (effectiveKey m) = 1 := by
    rw [hinv.values_keys]
    exact List.count_eq_one_of_mem hinv.1 hkey
  rw [List.count, List.countP_map] at hcount
  rw [← hcount]
  apply List.countP_congr
  intro e _
  simp

theorem extractModules_reachable_once_witness :
    extractModulesReturns diamondHeap [some 0, none, some 3] [modY, modX] ∧
      Reachable diamondHeap [some 0, none, some 3] 3 ∧
      (diamondHeap 3).Module = some modW ∧
      [modY, modX].countP (fun e => effectiveKey e = effectiveKey modW) = 1 :=
  ⟨⟨5, [modX, modY], by decide, List.Perm.swap _ _ _⟩,
    Reachable.step (Reachable.step (Reachable.root (by decide)) (by decide : some 1 ∈ (diamondHeap 0).Imports))
      (by decide : some 3 ∈ (diamondHeap 1).Imports),
    rfl,
    extractModules_reachable_once diamondHeap [some 0, none, some 3] [modY, modX]
      ⟨5, [modX, modY], by decide, List.Perm.swap _ _ _⟩ 3
      (Reachable.step (Reachable.step (Reachable.root (by decide))
        (by decide : some 1 ∈ (diamondHeap 0).Imports))
        (by decide : some 3 ∈ (diamondHeap 1).Imports))
      modW rfl⟩

/-- C3: `extractModules` terminates on every finite package graph, cycles
included.  With more fuel than the heap has packages, every call of `extract`
returns, having either left the state as it was or marked its package, which
was not marked before; `extractModules` returns a list that no other amount of
fuel changes; and on the cycle of two packages that import each other the
module of each package is recorded once, the two sharing one entry exactly
when their effective keys coincide. -/
theorem extractModules_terminates :
    (∀ (n : Nat) (H : Heap n) (fuel : Nat), n < fuel →
      (∀ (p : Option (Fin n)) (st : ExtractState n), ∃ st', extract H fuel p st = some st' ∧
        (st' = st ∨ ∃ q, p = some q ∧ q ∉ st.seen ∧ q ∈ st'.seen)) ∧
      ∀ pkgs : List (Option (Fin n)), ∃ out, extractModules H fuel pkgs = some out ∧
        ∀ fuel' out', extractModules H fuel' pkgs = some out' → out' = out) ∧
    (∀ a b : Module, extractModules (cycleHeap a b) 3 [some 0] =
        some (if effectiveKey a = effectiveKey b then [b] else [a, b]) ∧
      extractModules (cycleHeap a b) 3 [some 0, some 1] =
        some (if effectiveKey a = effectiveKey b then [b] else [a, b])) := by
  refine ⟨?_, ?_⟩
  · intro n H fuel hfuel
    refine ⟨?_, ?_⟩
    · intro p st
      obtain ⟨st', hst'⟩ :=
        extract_total H fuel p st (lt_of_le_of_lt (unseen_le_card st) hfuel)
      refine ⟨st', hst', ?_⟩
      obtain ⟨k, rfl⟩ : ∃ k, fuel = k + 1 := ⟨fuel - 1, by omega⟩
      cases p with
      | none =>
        simp only [extract, Option.some.injEq] at hst'
        exact Or.inl hst'.symm
      | some pkg =>
        by_cases hs : pkg ∈ st.seen
        · rw [extract_succ_some] at hst'
          simp only [hs, if_true, Option.some.injEq] at hst'
          exact Or.inl hst'.symm
        · exact Or.inr ⟨pkg, rfl, hs, (extract_step H _ _ st st' hst').2 pkg rfl⟩
    · intro pkgs
      obtain ⟨st, hst⟩ := extractRoots_total H fuel hfuel pkgs
      refine ⟨st.modMap.values, by simp [extractModules, hst], ?_⟩
      intro fuel' out' h'
      simp only [extractModules, Option.map_eq_some'] at h'
      obtain ⟨st', hst', rfl⟩ := h'
      rw [extractRoots_fuel_unique H fuel fuel' pkgs st st' hst hst']
  · intro a b
    have e3 : ∀ pkg st, extract (cycleHeap a b) 3 (some pkg) st = _ :=
      fun pkg st => extract_succ_some (cycleHeap a b) 2 pkg st
    have e2 : ∀ pkg st, extract (cycleHeap a b) 2 (some pkg) st = _ :=
      fun pkg st => extract_succ_some (cycleHeap a b) 1 pkg st
    have e1 : ∀ pkg st, extract (cycleHeap a b) 1 (some pkg) st = _ :=
      fun pkg st => extract_succ_some (cycleHeap a b) 0 pkg st
    constructor
    · by_cases h : effectiveKey a = effectiveKey b
      · simp [extractModules, extractRoots, e3, e2, e1, cycleHeap,
          recordModule_some, ModMap.set, ModMap.values, h]
      · simp [extractModules, extractRoots, e3, e2, e1, cycleHeap,
          recordModule_some, ModMap.set, ModMap.values, h]
    · by_cases h : effectiveKey a = effectiveKey b
      · simp [extractModules, extractRoots, e3, e2, e1, cycleHeap,
          recordModule_some, ModMap.set, ModMap.values, h]
      · simp [extractModules, extractRoots, e3, e2, e1, cycleHeap,
          recordModule_some, ModMap.set, ModMap.values, h]

theorem extractModules_terminates_witness :
    (2 < 3) ∧ (∃ out, extractModules (cycleHeap modX modY) 3 [some 0] = some out ∧
      ∀ fuel' out', extractModules (cycleHeap modX modY) fuel' [some 0] = some out' →
        out' = out) :=
  ⟨by decide, (extractModules_terminates.1 2 (cycleHeap modX modY) 3 (by decide)).2 [some 0]⟩

/-! ## Claims on fetchVulnerabilities and isLocal -/

/-- C4: when `fetchVulnerabilities` succeeds, the paths it queried are the lookup
paths of the modules of the list that are not local, in list order, where the
lookup path of `m` is `m.Replace.Path` when `m.Replace` is present and `m.Path`
otherwise; every entry of the result carries a module `m` of the list itself,
with the answer of the client for the lookup path of `m`; and every module of
the list that is not local and has a non-empty answer has such an entry. -/
theorem fetchVulnerabilities_replace_path {Entry Err : Type} (flag : Bool) (dir : String)
    (f : String → Except Err (List Entry)) (ms : List Module)
    (r : List (modVulns Entry)) (log : List String)
    (h : fetchVulnerabilities flag dir (logClient f) [] ms = (Except.ok r, log)) :
    log = ((ms.filter (fun m => !isLocal flag dir m)).map
        (fun m => match m.Replace with
          | some rep => rep.Path
          | none => m.Path)) ∧
      (∀ e ∈ r, e.mod ∈ ms ∧ isLocal flag dir e.mod = false ∧
        f (match e.mod.Replace with
          | some rep => rep.Path
          | none => e.mod.Path) = Except.ok e.vulns) ∧
      (∀ m ∈ ms, isLocal flag dir m = false → ∀ vs, vs ≠ [] →
        f (match m.Replace with
          | some rep => rep.Path
          | none => m.Path) = Except.ok vs → (⟨m, vs⟩ : modVulns Entry) ∈ r) := by
  obtain ⟨_, hr, hlog⟩ := fetchVulnerabilities_log_ok flag dir f ms r log h
  refine ⟨hlog, ?_, ?_⟩
  · intro e he
    rw [hr, List.mem_filterMap] at he
    obtain ⟨m, hm, hme⟩ := he
    obtain ⟨hl, hf, _, hmod⟩ := (entryOf_eq_some flag dir f m e).1 hme
    rw [hmod]
    exact ⟨hm, hl, hf⟩
  · intro m hm hl vs hvs hf
    rw [hr, List.mem_filterMap]
    exact ⟨m, hm, (entryOf_eq_some flag dir f m ⟨m, vs⟩).2 ⟨hl, hf, hvs, rfl⟩⟩

theorem fetchVulnerabilities_replace_path_witness :
    fetchVulnerabilities false "/go/pkg/mod" (logClient vulnDB) [] [modX, modY, modLocal] =
        (Except.ok [⟨modY, ["GO-2021-0001"]⟩], ["X", "Z"]) ∧
      ["X", "Z"] = (([modX, modY, modLocal].filter
          (fun m => !isLocal false "/go/pkg/mod" m)).map
        (fun m => match m.Replace with
          | some rep => rep.Path
          | none => m.Path)) :=
  ⟨rfl, (fetchVulnerabilities_replace_path false "/go/pkg/mod" vulnDB [modX, modY, modLocal]
    [⟨modY, ["GO-2021-0001"]⟩] ["X", "Z"] rfl).1⟩

/-- C5 (evaluation of the code): with the test-mode flag off and the module cache
root `/go/pkg/mod`, the module whose directory is `/go/pkg/modules/m` has a
non-empty effective directory that is neither the cache root nor a path inside
it, and `isLocal` is false for it. -/
theorem isLocal_sibling_directory :
    effectiveDir modSibling = "/go/pkg/modules/m" ∧
      effectiveDir modSibling ≠ "" ∧
      residesUnder "/go/pkg/mod" (effectiveDir modSibling) = false ∧
      isLocal false "/go/pkg/mod" modSibling = false := by
  decide

/-- C6 (counterexample): with the test-mode flag off, a module whose `Dir` is
empty and whose `Replace` has a directory outside the module cache is local,
and `fetchVulnerabilities` skips it without a query. -/
theorem isLocal_empty_dir_replaced_counterexample :
    modReplacedLocal.Dir = "" ∧ isLocal false "/go/pkg/mod" modReplacedLocal = true ∧
      fetchVulnerabilities false "/go/pkg/mod" (logClient vulnDB) [] [modReplacedLocal] =
        (Except.ok [], []) :=
  ⟨rfl, by decide, rfl⟩

/-- C6 (amended): with the test-mode flag off, for every module whose effective
directory (the `Dir` of its `Replace` when it has one, its own `Dir` otherwise)
is empty and every module cache root, `isLocal` is false, and a successful run
of `fetchVulnerabilities` on a list that contains the module has queried its
lookup path. -/
theorem isLocal_empty_effectiveDir (dir : String) (m : Module)
    (hdir : (match m.Replace with
      | some rep => rep.Dir
      | none => m.Dir) = "") :
    isLocal false dir m = false ∧
      ∀ (Entry Err : Type) (f : String → Except Err (List Entry)) (ms : List Module)
        (r : List (modVulns Entry)) (log : List String), m ∈ ms →
        fetchVulnerabilities false dir (logClient f) [] ms = (Except.ok r, log) →
        lookupPath m ∈ log := by
  have hl : isLocal false dir m = false := by
    unfold isLocal
    simp only [Bool.false_eq_true, if_false]
    rw [hdir]
    rfl
  refine ⟨hl, ?_⟩
  intro Entry Err f ms r log hm h
  obtain ⟨_, _, hlog⟩ := fetchVulnerabilities_log_ok false dir f ms r log h
  rw [hlog]
  exact List.mem_map_of_mem _ ((mem_eligible false dir ms m).2 ⟨hm, hl⟩)

theorem isLocal_empty_effectiveDir_witness :
    (match modX.Replace with
      | some rep => rep.Dir
      | none => modX.Dir) = "" ∧ isLocal false "/go/pkg/mod" modX = false :=
  ⟨rfl, (isLocal_empty_effectiveDir "/go/pkg/mod" modX rfl).1⟩

/-- C7 (counterexample): with the test-mode flag off, a module whose own `Dir`
lies outside the module cache root but whose `Replace` is materialised in the
cache is not skipped: the client is queried for it and it appears in the
result.  With the flag on, a module without `Replace` whose `Dir` lies outside
the cache is not skipped either. -/
theorem fetchVulnerabilities_outside_dir_counterexample :
    modReplacedCached.Dir = "/home/u/y" ∧
      HasPrefix modReplacedCached.Dir "/go/pkg/mod" = false ∧
      residesUnder "/go/pkg/mod" modReplacedCached.Dir = false ∧
      fetchVulnerabilities false "/go/pkg/mod" (logClient vulnDB) [] [modReplacedCached] =
        (Except.ok [⟨modReplacedCached, ["GO-2021-0001"]⟩], ["Z"]) ∧
      residesUnder "/go/pkg/mod" modLocalZ.Dir = false ∧
      fetchVulnerabilities true "/go/pkg/mod" (logClient vulnDB) [] [modLocalZ] =
        (Except.ok [⟨modLocalZ, ["GO-2021-0001"]⟩], ["Z"]) :=
  ⟨rfl, by decide, by decide, rfl, by decide, rfl⟩

/-- C7 (amended): with the test-mode flag off, for every module `m` whose
effective directory (the `Dir` of its `Replace` when it has one, its own `Dir`
otherwise) is non-empty and does not start with the module cache root, every
module list and every client: the run of `fetchVulnerabilities` is the run on the
list without `m`, with the same result and the same client calls, so that the
client is never invoked for `m`, and no entry of a result has module `m`. -/
theorem fetchVulnerabilities_skips_local {σ Entry Err : Type} (dir : String) (m : Module)
    (hne : (match m.Replace with
      | some rep => rep.Dir
      | none => m.Dir) ≠ "")
    (hpre : HasPrefix (match m.Replace with
      | some rep => rep.Dir
      | none => m.Dir) dir = false)
    (client : Client σ Entry Err) (s : σ) (ms : List Module) :
    fetchVulnerabilities false dir client s ms =
        fetchVulnerabilities false dir client s (ms.filter (fun x => x ≠ m)) ∧
      ∀ (r : List (modVulns Entry)) (s' : σ),
        fetchVulnerabilities false dir client s ms = (Except.ok r, s') →
        ∀ e ∈ r, e.mod ≠ m := by
  have hl : isLocal false dir m = true := by
    unfold isLocal
    simp only [Bool.false_eq_true, if_false, hpre, Bool.not_false, Bool.and_true]
    simpa using hne
  refine ⟨?_, ?_⟩
  · unfold fetchVulnerabilities
    rw [fetchLoop_eligible false dir client ms,
      fetchLoop_eligible false dir client (ms.filter (fun x => x ≠ m))]
    congr 1
    unfold eligible
    rw [List.filter_filter]
    apply List.filter_congr
    intro x _
    by_cases hx : x = m
    · subst hx
      simp [hl]
    · simp [hx]
  · intro r s' h e he hmod
    rcases fetchLoop_mod_mem false dir client ms [] r s s' h e he with h1 | ⟨_, h2⟩
    · cases h1
    · rw [hmod, hl] at h2
      cases h2

theorem fetchVulnerabilities_skips_local_witness :
    (match modLocal.Replace with
      | some rep => rep.Dir
      | none => modLocal.Dir) ≠ "" ∧
    HasPrefix (match modLocal.Replace with
      | some rep => rep.Dir
      | none => modLocal.Dir) "/go/pkg/mod" = false ∧
    fetchVulnerabilities false "/go/pkg/mod" (logClient vulnDB) [] [modX, modLocal, modY] =
      fetchVulnerabilities false "/go/pkg/mod" (logClient vulnDB) []
        ([modX, modLocal, modY].filter (fun x => x ≠ modLocal)) :=
  ⟨by decide, by decide,
    (fetchVulnerabilities_skips_local "/go/pkg/mod" modLocal (by decide) (by decide)
      (logClient vulnDB) [] [modX, modLocal, modY]).1⟩

/-- C8 (counterexample): a module that occurs twice in the list and for which the
client returns one vulnerability has two entries in the result; and a local
module for whose path the client has one vulnerability has none. -/
theorem fetchVulnerabilities_repeated_module_counterexample :
    modY ∈ [modY, modY] ∧ vulnDB (lookupPath modY) = Except.ok ["GO-2021-0001"] ∧
      fetchVulnerabilities false "/go/pkg/mod" (logClient vulnDB) [] [modY, modY] =
        (Except.ok [⟨modY, ["GO-2021-0001"]⟩, ⟨modY, ["GO-2021-0001"]⟩], ["Z", "Z"]) ∧
      (([⟨modY, ["GO-2021-0001"]⟩, ⟨modY, ["GO-2021-0001"]⟩] :
        List (modVulns String)).filter (fun e => e.mod = modY)).length = 2 ∧
      vulnDB (lookupPath modLocalZ) = Except.ok ["GO-2021-0001"] ∧
      fetchVulnerabilities false "/go/pkg/mod" (logClient vulnDB) [] [modLocalZ] =
        (Except.ok [], []) :=
  ⟨by decide, rfl, rfl, by decide, rfl, rfl⟩

/-- C8 (amended): for every module list, every module `M` in it and every client
for which `fetchVulnerabilities` succeeds: if the client returns zero
vulnerabilities for `M`, no entry of the result has module `M`; if the client
returns a non-empty list for `M` and `M` is not local, the result has one entry
with module `M` for each occurrence of `M` in the list (exactly one when `M`
occurs once), and the vulnerability list of each is exactly that list. -/
theorem fetchVulnerabilities_entries_of_module {Entry Err : Type} (flag : Bool)
    (dir : String) (f : String → Except Err (List Entry)) (ms : List Module)
    (r : List (modVulns Entry)) (log : List String) (M : Module) (hM : M ∈ ms)
    (h : fetchVulnerabilities flag dir (logClient f) [] ms = (Except.ok r, log)) :
    (f (lookupPath M) = Except.ok [] → ∀ e ∈ r, e.mod ≠ M) ∧
      (∀ vs, vs ≠ [] → f (lookupPath M) = Except.ok vs → isLocal flag dir M = false →
        (r.filter (fun e => e.mod = M)).length = ms.count M ∧
        (ms.count M = 1 → (r.filter (fun e => e.mod = M)).length = 1) ∧
        0 < (r.filter (fun e => e.mod = M)).length ∧
        ∀ e ∈ r, e.mod = M → e.vulns = vs) := by
  obtain ⟨_, hr, _⟩ := fetchVulnerabilities_log_ok flag dir f ms r log h
  have hentries : ∀ e ∈ r, f (lookupPath e.mod) = Except.ok e.vulns ∧ e.vulns ≠ [] := by
    intro e he
    rw [hr, List.mem_filterMap] at he
    obtain ⟨m, _, hme⟩ := he
    obtain ⟨_, hf, hne, hmod⟩ := (entryOf_eq_some flag dir f m e).1 hme
    rw [hmod]
    exact ⟨hf, hne⟩
  refine ⟨?_, ?_⟩
  · intro hzero e he hmod
    obtain ⟨hf, hne⟩ := hentries e he
    rw [hmod, hzero] at hf
    exact hne (Except.ok.inj hf).symm
  · intro vs hvs hf hl
    have hcount : (r.filter (fun e => e.mod = M)).length = ms.count M := by
      rw [hr]
      exact length_filter_filterMap_entryOf flag dir f M ⟨M, vs⟩
        ((entryOf_eq_some flag dir f M ⟨M, vs⟩).2 ⟨hl, hf, hvs, rfl⟩) ms
    refine ⟨hcount, fun h1 => hcount.trans h1, ?_, ?_⟩
    · rw [hcount]
      exact List.count_pos_iff.2 hM
    · intro e he hmod
      obtain ⟨hf', _⟩ := hentries e he
      rw [hmod, hf] at hf'
      exact (Except.ok.inj hf').symm

theorem fetchVulnerabilities_entries_of_module_witness :
    modY ∈ [modX, modY, modLocal] ∧
      fetchVulnerabilities false "/go/pkg/mod" (logClient vulnDB) [] [modX, modY, modLocal] =
        (Except.ok [⟨modY, ["GO-2021-0001"]⟩], ["X", "Z"]) ∧
      (([⟨modY, ["GO-2021-0001"]⟩] : List (modVulns String)).filter
        (fun e => e.mod = modY)).length = [modX, modY, modLocal].count modY :=
  ⟨by decide, rfl,
    ((fetchVulnerabilities_entries_of_module false "/go/pkg/mod" vulnDB [modX, modY, modLocal]
      [⟨modY, ["GO-2021-0001"]⟩] ["X", "Z"] modY (by decide) rfl).2 ["GO-2021-0001"]
      (by decide) rfl (by decide)).1⟩

/-- C9: fail-fast, for every client.  If the run over the modules before a module
`m` succeeds and the lookup of `m`, which is not local, then fails, the run over
the whole list returns the error of that lookup unchanged, with no collection,
and leaves the client in the state right after the failing call: the logged
client has been queried for the modules before `m` that are not local and for
`m`, and for no module after `m`.  Every run that returns an error is of that
form.  For a client whose answer depends on the path only: if the lookup fails
for some module of the list that is not local, the run returns the error of the
first such module in list order. -/
theorem fetchVulnerabilities_fail_fast {σ Entry Err : Type} (flag : Bool) (dir : String)
    (c : Client σ Entry Err) (s : σ) (ms : List Module) :
    (∀ (pre : List Module) (m : Module) (post : List Module) (r : List (modVulns Entry))
        (s1 s2 : σ) (err : Err), ms = pre ++ m :: post →
      fetchVulnerabilities flag dir c s pre = (Except.ok r, s1) →
      isLocal flag dir m = false →
      c.GetByModule s1 (lookupPath m) = (Except.error err, s2) →
      fetchVulnerabilities flag dir c s ms = (Except.error err, s2) ∧
        fetchVulnerabilities flag dir (withLog c) (s, []) ms =
          (Except.error err,
            (s2, (pre.filter (fun x => !isLocal flag dir x)).map lookupPath ++
              [lookupPath m]))) ∧
    (∀ (err : Err) (s' : σ), fetchVulnerabilities flag dir c s ms = (Except.error err, s') →
      ∃ pre m post r s1, ms = pre ++ m :: post ∧
        fetchVulnerabilities flag dir c s pre = (Except.ok r, s1) ∧
        isLocal flag dir m = false ∧
        c.GetByModule s1 (lookupPath m) = (Except.error err, s')) ∧
    (∀ f : String → Except Err (List Entry),
      (∃ m ∈ ms, isLocal flag dir m = false ∧ ∃ err, f (lookupPath m) = Except.error err) →
      ∃ pre m post err, ms = pre ++ m :: post ∧ isLocal flag dir m = false ∧
        f (lookupPath m) = Except.error err ∧
        (∀ m' ∈ pre, isLocal flag dir m' = false →
          ∃ vs, f (lookupPath m') = Except.ok vs) ∧
        fetchVulnerabilities flag dir (logClient f) [] ms =
          (Except.error err,
            ((pre.filter (fun x => !isLocal flag dir x)).map lookupPath) ++
              [lookupPath m])) := by
  refine ⟨?_, ?_, ?_⟩
  · intro pre m post r s1 s2 err hsplit hpre hl hcall
    unfold fetchVulnerabilities at hpre ⊢
    refine ⟨?_, ?_⟩
    · rw [hsplit, fetchLoop_append_ok flag dir c pre (m :: post) [] r s s1 hpre,
        fetchLoop_cons_error flag dir c m post r s1 s2 err hl hcall]
    · have hlog := fetchLoop_withLog_of_ok flag dir c pre [] r s s1 [] hpre
      have hw : (withLog c).GetByModule (s1, [] ++ (eligible flag dir pre).map lookupPath)
          (lookupPath m) =
          (Except.error err,
            (s2, [] ++ (eligible flag dir pre).map lookupPath ++ [lookupPath m])) := by
        simp [withLog, hcall]
      rw [hsplit, fetchLoop_append_ok flag dir (withLog c) pre (m :: post) [] r _ _ hlog,
        fetchLoop_cons_error flag dir (withLog c) m post r _ _ err hl hw]
      simp [eligible]
  · intro err s' h
    exact fetchLoop_error_split flag dir c ms [] s s' err h
  · intro f h
    obtain ⟨pre, m, post, err, hsplit, hl, herr, hpre⟩ := exists_first_failure flag dir f ms h
    refine ⟨pre, m, post, err, hsplit, hl, herr, hpre, ?_⟩
    unfold fetchVulnerabilities
    rw [hsplit, fetchLoop_log_error flag dir f pre m post err hl herr [] [] hpre]
    simp [eligible]

theorem fetchVulnerabilities_fail_fast_witness :
    [modY, modX, modW, modZ, modX] = [modY, modX] ++ modW :: [modZ, modX] ∧
    ([modY, modX, modW, modZ, modX].filter
      (fun x => !isLocal false "/go/pkg/mod" x)).length = 5 ∧
    fetchVulnerabilities false "/go/pkg/mod" flakyClient 0 [modY, modX] =
      (Except.ok [⟨modY, ["GO-2021-0001"]⟩], 2) ∧
    isLocal false "/go/pkg/mod" modW = false ∧
    flakyClient.GetByModule 0 (lookupPath modW) = (Except.ok ["GO-2021-0001"], 1) ∧
    flakyClient.GetByModule 2 (lookupPath modW) = (Except.error "timeout", 3) ∧
    (["Z", "X", "Z"] : List String).length = 3 ∧
    fetchVulnerabilities false "/go/pkg/mod" flakyClient 0 [modY, modX, modW, modZ, modX] =
      (Except.error "timeout", 3) ∧
    fetchVulnerabilities false "/go/pkg/mod" (withLog flakyClient) (0, [])
        [modY, modX, modW, modZ, modX] =
      (Except.error "timeout",
        (3, ([modY, modX].filter (fun x => !isLocal false "/go/pkg/mod" x)).map lookupPath ++
          [lookupPath modW])) ∧
    fetchVulnerabilities false "/go/pkg/mod" (withLog flakyClient) (0, [])
        [modY, modX, modW, modZ, modX] = (Except.error "timeout", (3, ["Z", "X", "Z"])) :=
  ⟨rfl, by decide, rfl, by decide, rfl, rfl, rfl,
    ((fetchVulnerabilities_fail_fast false "/go/pkg/mod" flakyClient 0
      [modY, modX, modW, modZ, modX]).1 [modY, modX] modW [modZ, modX]
      [⟨modY, ["GO-2021-0001"]⟩] 2 3 "timeout" rfl rfl (by decide) rfl).1,
    ((fetchVulnerabilities_fail_fast false "/go/pkg/mod" flakyClient 0
      [modY, modX, modW, modZ, modX]).1 [modY, modX] modW [modZ, modX]
      [⟨modY, ["GO-2021-0001"]⟩] 2 3 "timeout" rfl rfl (by decide) rfl).2,
    rfl⟩

/-- C10: when the test-mode flag `fetchingInTesting` is set, `isLocal` is false
for every module and every module cache root, and on a run of
`fetchVulnerabilities` where every lookup succeeds the client is queried once
for every module of the input list, in list order. -/
theorem fetchVulnerabilities_testing_flag (dir : String) :
    (∀ m : Module, isLocal true dir m = false) ∧
      ∀ (Entry Err : Type) (f : String → Except Err (List Entry)) (ms : List Module),
        (∀ m ∈ ms, ∃ vs, f (lookupPath m) = Except.ok vs) →
        ∃ r, fetchVulnerabilities true dir (logClient f) [] ms =
          (Except.ok r, ms.map lookupPath) := by
  have hl : ∀ m : Module, isLocal true dir m = false := fun m => by simp [isLocal]
  refine ⟨hl, ?_⟩
  intro Entry Err f ms hok
  refine ⟨ms.filterMap (entryOf true dir f), ?_⟩
  unfold fetchVulnerabilities
  rw [fetchLoop_log_ok true dir f ms [] [] (fun m hm _ => hok m hm)]
  have hall : eligible true dir ms = ms := by
    unfold eligible
    rw [List.filter_eq_self]
    intro m _
    simp [hl m]
  rw [hall]
  simp

theorem fetchVulnerabilities_testing_flag_witness :
    (∀ m ∈ [modX, modLocal, modReplacedLocal, modY],
      ∃ vs, vulnDB (lookupPath m) = Except.ok vs) ∧
    isLocal false "/go/pkg/mod" modLocal = true ∧
    ∃ r, fetchVulnerabilities true "/go/pkg/mod" (logClient vulnDB) []
        [modX, modLocal, modReplacedLocal, modY] =
      (Except.ok r, [modX, modLocal, modReplacedLocal, modY].map lookupPath) :=
  ⟨by
      intro m hm
      simp only [List.mem_cons, List.mem_singleton, List.not_mem_nil, or_false] at hm
      rcases hm with rfl | rfl | rfl | rfl
      · exact ⟨[], rfl⟩
      · exact ⟨[], rfl⟩
      · exact ⟨[], rfl⟩
      · exact ⟨["GO-2021-0001"], rfl⟩,
    by decide,
    (fetchVulnerabilities_testing_flag "/go/pkg/mod").2 String String vulnDB
      [modX, modLocal, modReplacedLocal, modY]
      (by
        intro m hm
        simp only [List.mem_cons, List.mem_singleton, List.not_mem_nil, or_false] at hm
        rcases hm with rfl | rfl | rfl | rfl
        · exact ⟨[], rfl⟩
        · exact ⟨[], rfl⟩
        · exact ⟨[], rfl⟩
        · exact ⟨["GO-2021-0001"], rfl⟩)⟩

/-! ## The example of the specification -/

/-- C11 (counterexample): on the example graph `extractModules` yields two module
entries, `X@1.0` and `Y@2.0`, not one, and `fetchVulnerabilities` on that output
looks up path `X` as well as path `Z`. -/
theorem example_two_entries_counterexample :
    extractModules (exampleHeap (exampleX "") (exampleY "" "/go/pkg/mod/Z@3.0")) 3 [some 0] =
        some [exampleX "", exampleY "" "/go/pkg/mod/Z@3.0"] ∧
      [exampleX "", exampleY "" "/go/pkg/mod/Z@3.0"].length = 2 ∧
      fetchVulnerabilities false "/go/pkg/mod" (logClient vulnDB) []
          [exampleX "", exampleY "" "/go/pkg/mod/Z@3.0"] =
        (Except.ok [⟨exampleY "" "/go/pkg/mod/Z@3.0", ["GO-2021-0001"]⟩], ["X", "Z"]) :=
  ⟨by decide, rfl, rfl⟩

/-- C11 (amended): on the example graph, whatever the directories of `X@1.0` and
`Y@2.0`, with the directory of `Z@3.0` under the module cache: the map has two
entries, `X@1.0` under key `X@1.0` and `Y@2.0` under key `Z@3.0`, so
`extractModules` returns these two modules in either order; and
`fetchVulnerabilities` on such an output, with a client that has one
vulnerability for path `Z` and none for any other path, returns the single
entry of `Y@2.0` with that vulnerability, having looked up path `Z` once and no
path other than `X` and `Z`. -/
theorem example_dedup_fetch {Entry Err : Type} (dX dY dZ cache : String) (flag : Bool)
    (hZ : HasPrefix dZ cache = true) (f : String → Except Err (List Entry)) (v : Entry)
    (hf : f "Z" = Except.ok [v]) (hf0 : ∀ p, p ≠ "Z" → f p = Except.ok []) :
    extractRoots (exampleHeap (exampleX dX) (exampleY dY dZ)) 3 [some 0] =
        some ⟨[("X@1.0", exampleX dX), ("Z@3.0", exampleY dY dZ)], [1, 0]⟩ ∧
      extractModulesReturns (exampleHeap (exampleX dX) (exampleY dY dZ)) [some 0]
        [exampleX dX, exampleY dY dZ] ∧
      extractModulesReturns (exampleHeap (exampleX dX) (exampleY dY dZ)) [some 0]
        [exampleY dY dZ, exampleX dX] ∧
      ∀ out, extractModulesReturns (exampleHeap (exampleX dX) (exampleY dY dZ)) [some 0] out →
        (out = [exampleX dX, exampleY dY dZ] ∨ out = [exampleY dY dZ, exampleX dX]) ∧
        ∃ log, fetchVulnerabilities flag cache (logClient f) [] out =
            (Except.ok [⟨exampleY dY dZ, [v]⟩], log) ∧
          log.count "Z" = 1 ∧ ∀ p ∈ log, p = "X" ∨ p = "Z" := by
  have hkX : effectiveKey (exampleX dX) = "X@1.0" := by
    simp only [effectiveKey, exampleX, modKey]
    decide
  have hkY : effectiveKey (exampleY dY dZ) = "Z@3.0" := by
    simp only [effectiveKey, exampleY, exampleZ, modKey]
    decide
  have hkne : effectiveKey (exampleX dX) ≠ effectiveKey (exampleY dY dZ) := by
    rw [hkX, hkY]
    decide
  have hroots := exampleHeap_extractRoots (exampleX dX) (exampleY dY dZ) hkne
  rw [hkX, hkY] at hroots
  have hne : exampleX dX ≠ exampleY dY dZ := by
    intro h
    have := congrArg Module.Path h
    simp [exampleX, exampleY] at this
  have hret := extractModulesReturns_of_eq _ 3 [some 0] _ hroots
  have hlY : isLocal flag cache (exampleY dY dZ) = false := by
    cases flag <;> simp [isLocal, exampleY, exampleZ, hZ]
  have hpX : lookupPath (exampleX dX) = "X" := rfl
  have hpY : lookupPath (exampleY dY dZ) = "Z" := rfl
  have hfX : f "X" = Except.ok [] := hf0 "X" (by decide)
  have heX : entryOf flag cache f (exampleX dX) = none := by
    unfold entryOf
    rw [hpX, hfX]
    cases isLocal flag cache (exampleX dX) <;> simp
  have heY : entryOf flag cache f (exampleY dY dZ) = some ⟨exampleY dY dZ, [v]⟩ := by
    unfold entryOf
    rw [hpY, hf, hlY]
    simp
  have hok : ∀ ms : List Module, ∀ m ∈ ms, isLocal flag cache m = false →
      ∃ vs, f (lookupPath m) = Except.ok vs := by
    intro ms m _ _
    by_cases hp : lookupPath m = "Z"
    · exact ⟨[v], by rw [hp, hf]⟩
    · exact ⟨[], hf0 _ hp⟩
  refine ⟨hroots, (hret _).2 (List.Perm.refl _), (hret _).2 (List.Perm.swap _ _ _), ?_⟩
  intro out hout
  have hcases := perm_pair hne ((hret out).1 hout)
  refine ⟨hcases, ?_⟩
  unfold fetchVulnerabilities
  rw [fetchLoop_log_ok flag cache f out [] [] (hok out)]
  rcases hcases with rfl | rfl
  · refine ⟨List.map lookupPath (eligible flag cache [exampleX dX, exampleY dY dZ]), ?_, ?_⟩
    · simp [heX, heY]
    · cases hlX : isLocal flag cache (exampleX dX) <;>
        simp [eligible, hlX, hlY, hpX, hpY]
  · refine ⟨List.map lookupPath (eligible flag cache [exampleY dY dZ, exampleX dX]), ?_, ?_⟩
    · simp [heX, heY]
    · cases hlX : isLocal flag cache (exampleX dX) <;>
        simp [eligible, hlX, hlY, hpX, hpY]

theorem example_dedup_fetch_witness :
    HasPrefix "/go/pkg/mod/Z@3.0" "/go/pkg/mod" = true ∧
      vulnZ "Z" = Except.ok ["GO-2021-0001"] ∧
      (∀ p, p ≠ "Z" → vulnZ p = Except.ok []) ∧
      extractRoots (exampleHeap (exampleX "/home/u/x") (exampleY "" "/go/pkg/mod/Z@3.0")) 3
          [some 0] =
        some ⟨[("X@1.0", exampleX "/home/u/x"), ("Z@3.0", exampleY "" "/go/pkg/mod/Z@3.0")],
          [1, 0]⟩ :=
  ⟨by decide, rfl, fun p hp => by simp [vulnZ, hp],
    (example_dedup_fetch "/home/u/x" "" "/go/pkg/mod/Z@3.0" "/go/pkg/mod" false (by decide)
      vulnZ "GO-2021-0001" rfl (fun p hp => by simp [vulnZ, hp])).1⟩

/-! ## Claims on the order of the result and of the queries -/

/-- C12: when every lookup on a module that is not local succeeds, the result of
`fetchVulnerabilities` is the list, in the order of the input list, of the pairs
of a module `m` and the answer for its lookup path, for exactly those `m` of
the input that are not local and whose answer is not empty; the modules of the
result form a subsequence of the input list. -/
theorem fetchVulnerabilities_result_in_order {Entry Err : Type} (flag : Bool)
    (dir : String) (f : String → Except Err (List Entry)) (ms : List Module)
    (hok : ∀ m ∈ ms, isLocal flag dir m = false → ∃ vs, f (lookupPath m) = Except.ok vs) :
    ∃ r log, fetchVulnerabilities flag dir (logClient f) [] ms = (Except.ok r, log) ∧
      r = ms.filterMap (fun m =>
        if isLocal flag dir m then none
        else
          match f (lookupPath m) with
          | Except.ok vs => if vs.length = 0 then none else some ⟨m, vs⟩
          | Except.error _ => none) ∧
      (∀ e, e ∈ r ↔ e.mod ∈ ms ∧ isLocal flag dir e.mod = false ∧
        f (lookupPath e.mod) = Except.ok e.vulns ∧ e.vulns ≠ []) ∧
      (r.map (fun e => e.mod)).Sublist ms := by
  refine ⟨ms.filterMap (entryOf flag dir f), (eligible flag dir ms).map lookupPath, ?_, rfl, ?_,
    sublist_map_mod_filterMap_entryOf flag dir f ms⟩
  · unfold fetchVulnerabilities
    rw [fetchLoop_log_ok flag dir f ms [] [] hok]
    simp
  · intro e
    rw [List.mem_filterMap]
    constructor
    · rintro ⟨m, hm, hme⟩
      obtain ⟨hl, hf, hne, hmod⟩ := (entryOf_eq_some flag dir f m e).1 hme
      rw [hmod]
      exact ⟨hm, hl, hf, hne⟩
    · rintro ⟨hm, hl, hf, hne⟩
      exact ⟨e.mod, hm, (entryOf_eq_some flag dir f e.mod e).2 ⟨hl, hf, hne, rfl⟩⟩

theorem fetchVulnerabilities_result_in_order_witness :
    (∀ m ∈ [modY, modLocal, modX, modW], isLocal false "/go/pkg/mod" m = false →
      ∃ vs, vulnZ (lookupPath m) = Except.ok vs) ∧
    fetchVulnerabilities false "/go/pkg/mod" (logClient vulnZ) [] [modY, modLocal, modX, modW] =
      (Except.ok [⟨modY, ["GO-2021-0001"]⟩, ⟨modW, ["GO-2021-0001"]⟩], ["Z", "X", "Z"]) ∧
    ∃ r log, fetchVulnerabilities false "/go/pkg/mod" (logClient vulnZ) []
        [modY, modLocal, modX, modW] = (Except.ok r, log) ∧
      r = [modY, modLocal, modX, modW].filterMap (fun m =>
        if isLocal false "/go/pkg/mod" m then none
        else
          match vulnZ (lookupPath m) with
          | Except.ok vs => if vs.length = 0 then none else some ⟨m, vs⟩
          | Except.error _ => none) ∧
      (∀ e, e ∈ r ↔ e.mod ∈ [modY, modLocal, modX, modW] ∧
        isLocal false "/go/pkg/mod" e.mod = false ∧
        vulnZ (lookupPath e.mod) = Except.ok e.vulns ∧ e.vulns ≠ []) ∧
      (r.map (fun e => e.mod)).Sublist [modY, modLocal, modX, modW] :=
  ⟨fun m _ _ => by
      by_cases hp : lookupPath m = "Z"
      · exact ⟨["GO-2021-0001"], by simp [vulnZ, hp]⟩
      · exact ⟨[], by simp [vulnZ, hp]⟩,
    rfl,
    fetchVulnerabilities_result_in_order false "/go/pkg/mod" vulnZ [modY, modLocal, modX, modW]
      (fun m _ _ => by
        by_cases hp : lookupPath m = "Z"
        · exact ⟨["GO-2021-0001"], by simp [vulnZ, hp]⟩
        · exact ⟨[], by simp [vulnZ, hp]⟩)⟩

/-- C13: for every client, logged with the paths it is queried with: on every
module list on which `fetchVulnerabilities` succeeds, the log is the list of
the lookup paths (`Replace.Path` when `Replace` is present, `Path` otherwise) of
the modules of the list that are not local, in the order of the list, one for
each occurrence; and the logged run is the run of the client itself. -/
theorem fetchVulnerabilities_query_log {σ Entry Err : Type} (flag : Bool) (dir : String)
    (c : Client σ Entry Err) (s s' : σ) (ms : List Module) (r : List (modVulns Entry))
    (log : List String)
    (h : fetchVulnerabilities flag dir (withLog c) (s, []) ms = (Except.ok r, (s', log))) :
    log = (ms.filter (fun m => !isLocal flag dir m)).map
        (fun m => match m.Replace with
          | some rep => rep.Path
          | none => m.Path) ∧
      log.length = (ms.filter (fun m => !isLocal flag dir m)).length ∧
      fetchVulnerabilities flag dir c s ms = (Except.ok r, s') := by
  obtain ⟨h1, h2⟩ := fetchLoop_withLog_ok flag dir c ms [] r s s' [] log h
  have hlog : log = (ms.filter (fun m => !isLocal flag dir m)).map
      (fun m => match m.Replace with
        | some rep => rep.Path
        | none => m.Path) := by
    rw [h1]
    rfl
  refine ⟨hlog, ?_, h2⟩
  rw [hlog, List.length_map]

theorem fetchVulnerabilities_query_log_witness :
    fetchVulnerabilities false "/go/pkg/mod" (withLog flakyClient) (0, [])
        [modY, modLocal, modX] = (Except.ok [⟨modY, ["GO-2021-0001"]⟩], (2, ["Z", "X"])) ∧
      ["Z", "X"] = ([modY, modLocal, modX].filter
          (fun m => !isLocal false "/go/pkg/mod" m)).map
        (fun m => match m.Replace with
          | some rep => rep.Path
          | none => m.Path) :=
  ⟨rfl, (fetchVulnerabilities_query_log false "/go/pkg/mod" flakyClient 0 2
    [modY, modLocal, modX] [⟨modY, ["GO-2021-0001"]⟩] ["Z", "X"] rfl).1⟩

/-! ## Claims on nil packages, stored values and the visit order -/

/-- C14: `extractModules` never fails: with more fuel than the heap has packages
it returns a list.  It returns the empty list for the empty list of roots, for
a list of nil packages only, and for every graph in which no reachable package
has an owning module.  Nil entries among the roots and the imports are skipped
without effect: the result is that of the same graph with every nil entry
removed. -/
theorem extractModules_nil_graceful {n : Nat} (H : Heap n) (fuel : Nat) (hfuel : n < fuel)
    (pkgs : List (Option (Fin n))) :
    (∃ out, extractModules H fuel pkgs = some out) ∧
      extractModules H fuel [] = some [] ∧
      ((∀ p ∈ pkgs, p = none) → extractModules H fuel pkgs = some []) ∧
      ((∀ p, Reachable H pkgs p → (H p).Module = none) →
        extractModules H fuel pkgs = some []) ∧
      extractModules (dropNil H) fuel (pkgs.filter (fun i => i.isSome)) =
        extractModules H fuel pkgs := by
  obtain ⟨st, hst⟩ := extractRoots_total H fuel hfuel pkgs
  refine ⟨⟨st.modMap.values, by simp [extractModules, hst]⟩, rfl, ?_, ?_, ?_⟩
  · intro hnil
    simp [extractModules, extractRoots_all_nil H fuel (by omega) pkgs hnil, ModMap.values]
  · intro hnone
    have hempty : st.modMap = [] := by
      apply List.eq_nil_iff_forall_not_mem.2
      intro e he
      obtain ⟨p, hp, hm⟩ := extractRoots_origin H fuel pkgs st hst e he
      rw [hnone p hp] at hm
      cases hm
    simp [extractModules, hst, hempty, ModMap.values]
  · simp [extractModules, hst, extractRoots_dropNil H fuel pkgs st hst]

theorem extractModules_nil_graceful_witness :
    (4 < 5) ∧
      extractModules (dropNil diamondHeap) 5 ([none, some 0, none, some 3].filter
          (fun i => i.isSome)) =
        extractModules diamondHeap 5 [none, some 0, none, some 3] ∧
      extractModules diamondHeap 5 [none, some 0, none, some 3] = some [modX, modY] :=
  ⟨by decide,
    (extractModules_nil_graceful diamondHeap 5 (by decide) [none, some 0, none, some 3]).2.2.2.2,
    by decide⟩

/-- C15 (counterexample): package 0 owns `Y@2.0`, whose `Replace` is `Z@3.0`, and
imports package 1, which owns `Z@3.0` itself.  The visit of package 1 overwrites
the entry of key `Z@3.0`: the entry stored under the key of the `Replace` is
`Z@3.0`, not `Y@2.0`, and `Y@2.0` is not in the result. -/
theorem extractModules_replace_entry_counterexample :
    (exampleHeap modY modZ 0).Module = some modY ∧ modY.Replace = some modZ ∧
      modKey (some modZ) = "Z@3.0" ∧
      Reachable (exampleHeap modY modZ) [some 0] 0 ∧
      extractRoots (exampleHeap modY modZ) 3 [some 0] =
        some ⟨[("Z@3.0", modZ)], [1, 0]⟩ ∧
      extractModules (exampleHeap modY modZ) 3 [some 0] = some [modZ] ∧
      modY ∉ [modZ] :=
  ⟨rfl, rfl, by decide, Reachable.root (by decide), rfl, by decide, by decide⟩

/-- C15 (amended): every entry of a list that `extractModules` can return is the
owning module of a package reachable from the roots.  Every entry of the final
map is such an owning module, stored under the key of its `Replace` when it has
one and under its own key otherwise.  The visit of an unmarked package whose
module `m` has a `Replace` `R` stores `m` itself under the key of `R` before it
walks the imports.  In the final map the entry under the key of `R` is the
owning module of the package visited last among the packages whose module has
that effective key: it is `m` when that package is the package of `m`. -/
theorem extractModules_stores_owning_module {n : Nat} (H : Heap n)
    (pkgs : List (Option (Fin n))) :
    (∀ out, extractModulesReturns H pkgs out →
      ∀ m ∈ out, ∃ p, Reachable H pkgs p ∧ (H p).Module = some m) ∧
    (∀ fuel st, extractRoots H fuel pkgs = some st → ∀ k v, (k, v) ∈ st.modMap →
      (∃ p, Reachable H pkgs p ∧ (H p).Module = some v) ∧
      (∀ R, v.Replace = some R → k = modKey (some R)) ∧
      (v.Replace = none → k = modKey (some v))) ∧
    (∀ (fuel : Nat) (pkg : Fin n) (st : ExtractState n) (m R : Module),
      pkg ∉ st.seen → (H pkg).Module = some m → m.Replace = some R →
      extract H (fuel + 1) (some pkg) st =
          (H pkg).Imports.foldlM (fun s imp => extract H fuel imp s)
            ⟨st.modMap.set (modKey (some R)) m, pkg :: st.seen⟩ ∧
        (st.modMap.set (modKey (some R)) m).get (modKey (some R)) = some m) ∧
    (∀ (fuel : Nat) (st : ExtractState n) (order : List (Fin n)),
      extractRoots H fuel pkgs = some st → visitOrder H fuel pkgs = some order →
      ∀ (p : Fin n) (m R : Module), Reachable H pkgs p → (H p).Module = some m →
        m.Replace = some R →
        ∃ q mq, (order.filter (fun x => keyOf H x = some (modKey (some R)))).getLast? = some q ∧
          (H q).Module = some mq ∧ st.modMap.get (modKey (some R)) = some mq ∧
          (q = p → mq = m)) := by
  refine ⟨?_, ?_, ?_, ?_⟩
  · intro out hout m hm
    obtain ⟨fuel, st, hst, _, hperm⟩ := extractModulesReturns_inv hout
    have hmem : m ∈ st.modMap.values := hperm.mem_iff.1 hm
    simp only [ModMap.values, List.mem_map] at hmem
    obtain ⟨e, he, rfl⟩ := hmem
    exact extractRoots_origin H fuel pkgs st hst e he
  · intro fuel st hst k v hkv
    have hkey : k = effectiveKey v := (extractRoots_inv H fuel pkgs st hst).2 (k, v) hkv
    refine ⟨extractRoots_origin H fuel pkgs st hst (k, v) hkv, ?_, ?_⟩
    · intro R hR
      rw [hkey, effectiveKey, hR]
    · intro hnone
      rw [hkey, effectiveKey, hnone]
  · intro fuel pkg st m R hs hm hR
    refine ⟨?_, ModMap.get_set_self _ _ _⟩
    rw [extract_succ_some, if_neg hs, hm, recordModule_some, effectiveKey, hR]
  · intro fuel st order hst horder p m R hp hm hR
    have hord : order = st.seen.reverse := by
      simp only [visitOrder, hst, Option.map_some', Option.some.injEq] at horder
      exact horder.symm
    have hkp : keyOf H p = some (modKey (some R)) := by
      simp [keyOf, hm, effectiveKey, hR]
    have hmem : p ∈ order.filter (fun x => keyOf H x = some (modKey (some R))) := by
      rw [List.mem_filter, hord, List.mem_reverse]
      exact ⟨extractRoots_reachable H fuel pkgs st hst p hp, by simpa using hkp⟩
    cases hlast : (order.filter (fun x => keyOf H x = some (modKey (some R)))).getLast? with
    | none =>
      rw [List.getLast?_eq_none_iff] at hlast
      rw [hlast] at hmem
      cases hmem
    | some q =>
      have hfind : st.seen.find? (fun x => keyOf H x = some (modKey (some R))) = some q := by
        rw [← getLast?_filter_reverse, ← hord]
        exact hlast
      have hq : keyOf H q = some (modKey (some R)) := by simpa using List.find?_some hfind
      have hget := extractRoots_get H fuel pkgs st hst (modKey (some R))
      rw [hfind, Option.some_bind] at hget
      simp only [keyOf, Option.map_eq_some'] at hq
      obtain ⟨mq, hmq, _⟩ := hq
      refine ⟨q, mq, rfl, hmq, by rw [hget, hmq], ?_⟩
      intro hqp
      rw [hqp, hm] at hmq
      exact (Option.some.inj hmq).symm

theorem extractModules_stores_owning_module_witness :
    extractModulesReturns diamondHeap [some 0] [modY, modX] ∧
      modY ∈ [modY, modX] ∧ modY.Replace = some modZ ∧
      (∃ p, Reachable diamondHeap [some 0] p ∧ (diamondHeap p).Module = some modY) ∧
      extractRoots diamondHeap 5 [some 0] =
        some ⟨[("X@1.0", modX), ("Z@3.0", modY)], [2, 3, 1, 0]⟩ ∧
      visitOrder diamondHeap 5 [some 0] = some [0, 1, 3, 2] ∧
      Reachable diamondHeap [some 0] 2 ∧ (diamondHeap 2).Module = some modY ∧
      ∃ q mq, ([0, 1, 3, 2].filter
          (fun x => keyOf diamondHeap x = some (modKey (some modZ)))).getLast? = some q ∧
        (diamondHeap q).Module = some mq ∧
        ModMap.get [("X@1.0", modX), ("Z@3.0", modY)] (modKey (some modZ)) = some mq ∧
        (q = 2 → mq = modY) :=
  ⟨⟨5, [modX, modY], by decide, List.Perm.swap _ _ _⟩, by decide, rfl,
    (extractModules_stores_owning_module diamondHeap [some 0]).1 [modY, modX]
      ⟨5, [modX, modY], by decide, List.Perm.swap _ _ _⟩ modY (by decide),
    rfl, by decide,
    Reachable.step (Reachable.root (by decide)) (by decide : some 2 ∈ (diamondHeap 0).Imports),
    rfl,
    (extractModules_stores_owning_module diamondHeap [some 0]).2.2.2 5
      ⟨[("X@1.0", modX), ("Z@3.0", modY)], [2, 3, 1, 0]⟩ [0, 1, 3, 2] rfl (by decide) 2 modY modZ
      (Reachable.step (Reachable.root (by decide))
        (by decide : some 2 ∈ (diamondHeap 0).Imports)) rfl rfl⟩

/-- C16: the order in which `extractModules` marks the packages is the depth-first
pre-order of first visits, and it lists every reachable package once.  For every
key `k`, when `q` is the last package in that order whose owning module has
effective key `k`, the owning module of `q` is in the returned list and it is
the only entry with effective key `k`: a different module of an earlier package
with that key is not in the result. -/
theorem extractModules_last_visit_wins {n : Nat} (H : Heap n)
    (pkgs : List (Option (Fin n))) (out : List Module)
    (hout : extractModulesReturns H pkgs out) :
    ∃ fuel order, visitOrder H fuel pkgs = some order ∧
      dfsPreorderRoots H fuel pkgs = some order ∧ order.Nodup ∧
      (∀ q, q ∈ order ↔ Reachable H pkgs q) ∧
      ∀ k q, (order.filter (fun p => keyOf H p = some k)).getLast? = some q →
        ∃ mq, (H q).Module = some mq ∧ effectiveKey mq = k ∧ mq ∈ out ∧
          ∀ e ∈ out, effectiveKey e = k → e = mq := by
  obtain ⟨fuel, st, hst, hinv, hperm⟩ := extractModulesReturns_inv hout
  refine ⟨fuel, st.seen.reverse, by simp [visitOrder, hst],
    extractRoots_dfsPreorder H fuel pkgs st hst,
    List.nodup_reverse.2 (extractRoots_seen_nodup H fuel pkgs st hst), ?_, ?_⟩
  · intro q
    rw [List.mem_reverse]
    exact extractRoots_seen_iff H fuel pkgs st hst q
  · intro k q hlast
    rw [getLast?_filter_reverse] at hlast
    have hq : keyOf H q = some k := by simpa using List.find?_some hlast
    have hget := extractRoots_get H fuel pkgs st hst k
    rw [hlast, Option.some_bind] at hget
    simp only [keyOf, Option.map_eq_some'] at hq
    obtain ⟨mq, hmq, hkq⟩ := hq
    rw [hmq] at hget
    refine ⟨mq, hmq, hkq, ?_, ?_⟩
    · apply hperm.mem_iff.2
      exact List.mem_map_of_mem Prod.snd (ModMap.mem_of_get _ _ _ hget)
    · intro e he hek
      have hmem : e ∈ st.modMap.values := hperm.mem_iff.1 he
      simp only [ModMap.values, List.mem_map] at hmem
      obtain ⟨⟨k', e'⟩, hmem', rfl⟩ := hmem
      have hk' : k' = effectiveKey e' := hinv.2 (k', e') hmem'
      have hget' := ModMap.get_of_mem _ hinv.1 k' e' hmem'
      rw [hk', hek, hget] at hget'
      exact (Option.some.inj hget').symm

theorem extractModules_last_visit_wins_witness :
    extractModulesReturns diamondHeap [some 0] [modY, modX] ∧
      visitOrder diamondHeap 5 [some 0] = some [0, 1, 3, 2] ∧
      keyOf diamondHeap 3 = some "Z@3.0" ∧ keyOf diamondHeap 2 = some "Z@3.0" ∧
      (diamondHeap 3).Module = some modW ∧ (diamondHeap 2).Module = some modY ∧
      modW ∉ [modY, modX] ∧
      ∃ fuel order, visitOrder diamondHeap fuel [some 0] = some order ∧
        dfsPreorderRoots diamondHeap fuel [some 0] = some order ∧ order.Nodup ∧
        (∀ q, q ∈ order ↔ Reachable diamondHeap [some 0] q) ∧
        ∀ k q, (order.filter (fun p => keyOf diamondHeap p = some k)).getLast? = some q →
          ∃ mq, (diamondHeap q).Module = some mq ∧ effectiveKey mq = k ∧ mq ∈ [modY, modX] ∧
            ∀ e ∈ [modY, modX], effectiveKey e = k → e = mq :=
  ⟨⟨5, [modX, modY], by decide, List.Perm.swap _ _ _⟩, by decide, by decide, by decide, rfl,
    rfl, by decide,
    extractModules_last_visit_wins diamondHeap [some 0] [modY, modX]
      ⟨5, [modX, modY], by decide, List.Perm.swap _ _ _⟩⟩

/-! ## Claims on replacements, the module cache directory and keys -/

/-- C17: replacement resolution is single-hop.  For a module `m` whose `Replace`
`R` has a `Replace` `R2` itself: `extractModules` stores `m` under the key made
of the `Path` and `Version` of `R`, `fetchVulnerabilities` queries the `Path` of
`R`, and `isLocal` tests the `Dir` of `R`; no field of `R2` is read. -/
theorem replace_single_hop (m R R2 : Module) (hR : m.Replace = some R)
    (_hR2 : R.Replace = some R2) :
    (∀ fuel, extractRoots (singleHeap m) (fuel + 1) [some 0] =
      some ⟨[(R.Path ++ "@" ++ R.Version, m)], [0]⟩) ∧
    (∀ (n : Nat) (H : Heap n) (fuel : Nat) (pkg : Fin n) (st : ExtractState n),
      pkg ∉ st.seen → (H pkg).Module = some m →
      extract H (fuel + 1) (some pkg) st =
        (H pkg).Imports.foldlM (fun s imp => extract H fuel imp s)
          ⟨st.modMap.set (R.Path ++ "@" ++ R.Version) m, pkg :: st.seen⟩) ∧
    (∀ (flag : Bool) (dir : String) (Entry Err : Type) (f : String → Except Err (List Entry)),
      isLocal flag dir m = false →
      (fetchVulnerabilities flag dir (logClient f) [] [m]).2 = [R.Path]) ∧
    (∀ dir, isLocal false dir m = (R.Dir != "" && !HasPrefix R.Dir dir)) := by
  have hkey : effectiveKey m = R.Path ++ "@" ++ R.Version := by
    rw [effectiveKey, hR]
    rfl
  have hpath : lookupPath m = R.Path := by
    rw [lookupPath, hR]
  refine ⟨?_, ?_, ?_, ?_⟩
  · intro fuel
    have e : extract (singleHeap m) (fuel + 1) (some 0) ⟨[], []⟩ = _ :=
      extract_succ_some (singleHeap m) fuel 0 ⟨[], []⟩
    simp only [extractRoots, List.foldlM_cons, e, List.not_mem_nil, if_false, singleHeap,
      List.foldlM_nil, recordModule_some, hkey, ModMap.set]
    rfl
  · intro n H fuel pkg st hs hm
    rw [extract_succ_some, if_neg hs, hm, recordModule_some, hkey]
  · intro flag dir Entry Err f hl
    unfold fetchVulnerabilities
    cases hf : f (lookupPath m) with
    | error err =>
      rw [fetchLoop_cons_error flag dir (logClient f) m [] [] [] ([] ++ [lookupPath m]) err hl
        (by rw [logClient_GetByModule, hf])]
      simp [hpath]
    | ok vs =>
      rw [fetchLoop_cons_ok flag dir (logClient f) m [] [] [] ([] ++ [lookupPath m]) vs hl
        (by rw [logClient_GetByModule, hf])]
      by_cases hz : vs.length = 0
      · simp [hz, fetchLoop_nil, hpath]
      · simp [hz, fetchLoop_nil, hpath]
  · intro dir
    simp only [isLocal, Bool.false_eq_true, if_false, hR]

theorem replace_single_hop_witness :
    modYChained.Replace = some modZChained ∧ modZChained.Replace = some modFork ∧
      extractRoots (singleHeap modYChained) 2 [some 0] =
        some ⟨[("Z@3.0", modYChained)], [0]⟩ ∧
      fetchVulnerabilities false "/go/pkg/mod" (logClient vulnZ) [] [modYChained] =
        (Except.ok [⟨modYChained, ["GO-2021-0001"]⟩], ["Z"]) ∧
      isLocal false "/go/pkg/mod" modYChained = false ∧
      isLocal false "/go/pkg/mod" modFork = true ∧
      ∀ fuel, extractRoots (singleHeap modYChained) (fuel + 1) [some 0] =
        some ⟨[(modZChained.Path ++ "@" ++ modZChained.Version, modYChained)], [0]⟩ :=
  ⟨rfl, rfl, rfl, rfl, by decide, by decide,
    (replace_single_hop modYChained modZChained modFork rfl rfl).1⟩

/-- C18 (counterexample): with a non-empty override `GOMODCACHE` the returned
directory is the override itself, without the segment `pkg/mod`. -/
theorem modCacheDirectory_override_counterexample :
    modCacheDirectory filepathJoin "/cache" "/home/u/go" "/root/go" = "/cache" ∧
      filepathJoin ["/cache", "pkg", "mod"] = "/cache/pkg/mod" ∧
      modCacheDirectory filepathJoin "/cache" "/home/u/go" "/root/go" ≠
        filepathJoin ["/cache", "pkg", "mod"] := by
  decide

/-- C18 (amended): `modCacheDirectory` returns the override `GOMODCACHE` itself
when it is non-empty; otherwise it takes the root from `GOPATH` when that is
non-empty and from the platform default otherwise, and returns the
`filepath.Join` of that root with the two segments `pkg` and `mod`. -/
theorem modCacheDirectory_resolution (Join : List String → String)
    (GOMODCACHE GOPATH defaultGOPATH : String) :
    (GOMODCACHE ≠ "" →
      modCacheDirectory Join GOMODCACHE GOPATH defaultGOPATH = GOMODCACHE) ∧
    (GOMODCACHE = "" → GOPATH ≠ "" →
      modCacheDirectory Join GOMODCACHE GOPATH defaultGOPATH = Join [GOPATH, "pkg", "mod"]) ∧
    (GOMODCACHE = "" → GOPATH = "" →
      modCacheDirectory Join GOMODCACHE GOPATH defaultGOPATH =
        Join [defaultGOPATH, "pkg", "mod"]) := by
  refine ⟨?_, ?_, ?_⟩
  · intro h
    simp [modCacheDirectory, h]
  · intro h1 h2
    simp [modCacheDirectory, h1, h2]
  · intro h1 h2
    simp [modCacheDirectory, h1, h2]

theorem modCacheDirectory_resolution_witness :
    ("" : String) = "" ∧ ("/home/u/go" : String) ≠ "" ∧
      modCacheDirectory filepathJoin "" "/home/u/go" "/root/go" =
        filepathJoin ["/home/u/go", "pkg", "mod"] ∧
      filepathJoin ["/home/u/go", "pkg", "mod"] = "/home/u/go/pkg/mod" ∧
      modCacheDirectory filepathJoin "" "" "/root/go" = "/root/go/pkg/mod" :=
  ⟨rfl, by decide,
    (modCacheDirectory_resolution filepathJoin "" "/home/u/go" "/root/go").2.1 rfl (by decide),
    by decide, by decide⟩

/-- C19: the set of effective keys of a list returned by `extractModules` is the
set of the effective keys of the owning modules of the packages reachable from
the roots.  Hence it is the same for two graphs with the same reachable
packages and the same owning modules on them; in particular it does not change
when the list of roots is permuted, when a root is repeated, or when
the import lists of the packages are reordered. -/
theorem extractModules_keys_depend_on_reachable {n : Nat} (H : Heap n)
    (pkgs : List (Option (Fin n))) (out : List Module)
    (hout : extractModulesReturns H pkgs out) :
    (∀ k, k ∈ out.map effectiveKey ↔
      ∃ p m, Reachable H pkgs p ∧ (H p).Module = some m ∧ effectiveKey m = k) ∧
    (∀ (H' : Heap n) (pkgs' : List (Option (Fin n))) (out' : List Module),
      extractModulesReturns H' pkgs' out' →
      (∀ p, Reachable H pkgs p ↔ Reachable H' pkgs' p) →
      (∀ p, Reachable H pkgs p → (H' p).Module = (H p).Module) →
      ∀ k, k ∈ out.map effectiveKey ↔ k ∈ out'.map effectiveKey) ∧
    (∀ (pkgs' : List (Option (Fin n))) (out' : List Module),
      extractModulesReturns H pkgs' out' → pkgs.Perm pkgs' →
      ∀ k, k ∈ out.map effectiveKey ↔ k ∈ out'.map effectiveKey) ∧
    (∀ (r : Option (Fin n)) (out' : List Module), r ∈ pkgs →
      extractModulesReturns H (r :: pkgs) out' →
      ∀ k, k ∈ out.map effectiveKey ↔ k ∈ out'.map effectiveKey) ∧
    (∀ (H' : Heap n) (out' : List Module), extractModulesReturns H' pkgs out' →
      (∀ p, (H' p).Module = (H p).Module) →
      (∀ p, (H p).Imports.Perm (H' p).Imports) →
      ∀ k, k ∈ out.map effectiveKey ↔ k ∈ out'.map effectiveKey) := by
  refine ⟨mem_keys_iff_reachable H pkgs out hout, ?_, ?_, ?_, ?_⟩
  · intro H' pkgs' out' hout' hreach hmod k
    exact keys_eq_of_reachable_eq H H' pkgs pkgs' out out' hout hout' hreach hmod k
  · intro pkgs' out' hout' hperm k
    refine keys_eq_of_reachable_eq H H pkgs pkgs' out out' hout hout' ?_ (fun _ _ => rfl) k
    intro p
    exact ⟨Reachable.mono (fun q hq => hperm.mem_iff.1 hq) (fun _ _ h => h),
      Reachable.mono (fun q hq => hperm.mem_iff.2 hq) (fun _ _ h => h)⟩
  · intro r out' hr hout' k
    refine keys_eq_of_reachable_eq H H pkgs (r :: pkgs) out out' hout hout' ?_
      (fun _ _ => rfl) k
    intro p
    refine ⟨Reachable.mono (fun q hq => List.mem_cons_of_mem _ hq) (fun _ _ h => h),
      Reachable.mono ?_ (fun _ _ h => h)⟩
    intro q hq
    rcases List.mem_cons.1 hq with h | h
    · rw [h]
      exact hr
    · exact h
  · intro H' out' hout' hmod hperm k
    refine keys_eq_of_reachable_eq H H' pkgs pkgs out out' hout hout' ?_
      (fun p _ => hmod p) k
    intro p
    exact ⟨Reachable.mono (fun _ h => h) (fun a b h => (hperm a).mem_iff.1 h),
      Reachable.mono (fun _ h => h) (fun a b h => (hperm a).mem_iff.2 h)⟩

theorem extractModules_keys_depend_on_reachable_witness :
    extractModulesReturns diamondHeap [some 0, some 2] [modX, modY] ∧
      extractModulesReturns diamondHeap [some 2, some 0] [modW, modX] ∧
      [some 0, some 2].Perm [some 2, (some 0 : Option (Fin 4))] ∧
      modW ∉ [modX, modY] ∧
      ∀ k, k ∈ [modX, modY].map effectiveKey ↔ k ∈ [modW, modX].map effectiveKey :=
  ⟨⟨5, [modX, modY], by decide, List.Perm.refl _⟩, ⟨5, [modW, modX], by decide, List.Perm.refl _⟩,
    List.Perm.swap _ _ _, by decide,
    (extractModules_keys_depend_on_reachable diamondHeap [some 0, some 2] [modX, modY]
      ⟨5, [modX, modY], by decide, List.Perm.refl _⟩).2.2.1 [some 2, some 0] [modW, modX]
      ⟨5, [modW, modX], by decide, List.Perm.refl _⟩ (List.Perm.swap _ _ _)⟩

/-- C20: `modKey` is injective on the modules whose `Path` contains no at sign:
two such modules with the same key have the same `Path` and the same `Version`.
The key of an absent module, the empty string, is the key of no present module.
Two modules with different pairs of `Path` and `Version` can share a key when a
path contains an at sign, and `extractModules` then keeps one of them only. -/
theorem modKey_injective_without_at :
    (∀ a b : Module, '@' ∉ a.Path.data → '@' ∉ b.Path.data →
      modKey (some a) = modKey (some b) → a.Path = b.Path ∧ a.Version = b.Version) ∧
    (∀ m : Module, modKey none ≠ modKey (some m)) ∧
    (modKey (some modAtPath) = modKey (some modAtVersion) ∧
      modAtPath.Path ≠ modAtVersion.Path ∧ modAtPath.Version ≠ modAtVersion.Version ∧
      extractModules (exampleHeap modAtPath modAtVersion) 3 [some 0] = some [modAtVersion]) := by
  refine ⟨?_, ?_, ?_⟩
  · intro a b ha hb h
    have hdata := congrArg String.data h
    rw [modKey_some_data, modKey_some_data] at hdata
    obtain ⟨h1, h2⟩ := append_cons_inj '@' _ _ _ _ ha hb hdata
    exact ⟨String.ext h1, String.ext h2⟩
  · intro m h
    have hdata := congrArg String.data h
    rw [modKey_some_data] at hdata
    simp [modKey] at hdata
  · decide

theorem modKey_injective_without_at_witness :
    '@' ∉ modX.Path.data ∧ '@' ∉ (exampleX "/home/u/x").Path.data ∧
      modKey (some modX) = modKey (some (exampleX "/home/u/x")) ∧
      modX.Path = (exampleX "/home/u/x").Path ∧ modX.Version = (exampleX "/home/u/x").Version :=
  ⟨by decide, by decide, by decide,
    modKey_injective_without_at.1 modX (exampleX "/home/u/x") (by decide) (by decide)
      (by decide)⟩

end Vulncheck
